import Mathlib

/-!
Verification of the checkers game agent (`src/main.py`).

The program is embedded shallowly:

* `Piece`, `Board` mirror the Python classes; the 8×8 grid `board` is stored
  row-major as a flat list of 64 optional pieces, indexed by `idx r c = r*8+c`
  for in-bounds `(r, c)`.  All positions handled by the program are in bounds
  (spec §3), so the guarded accessors `getCell`/`setCell` agree with Python's
  list indexing on every position the claims mention.
* Python's `dict` returned by `get_valid_moves` is represented as an
  association list in insertion order.  The four `_traverse` calls produce
  pairwise distinct destination keys (the destinations are `(r±1, c±1)` and
  `(r±2, c±2)`, all eight distinct), so no `update` ever overwrites and the
  association list is an exact model of the dict including iteration order.
* Python floats only ever hold integers and halves here (counts plus `0.5`
  bonuses), which binary floats represent exactly, so scores are modelled as
  `ℚ` extended with the two infinities used by `minimax`:
  `Score := WithBot (WithTop ℚ)` with `⊥ = float('-inf')`, `⊤ = float('inf')`.
-/

-- Batteries marks the rational operations `@[irreducible]`, which blocks the
-- `decide` tactic (the kernel itself ignores reducibility).  Restore the
-- default status so concrete boards can be evaluated by `decide`.
set_option allowUnsafeReducibility true in
attribute [semireducible] Rat.add Rat.sub Rat.mul Rat.inv Rat.ofScientific

namespace Checkers

inductive Color where
  | white
  | black
deriving DecidableEq, Repr

/-- A checker piece: its color and king status (class `Piece`). -/
structure Piece where
  color : Color
  king : Bool
deriving DecidableEq, Repr

abbrev Cell := Option Piece

/-- The 8×8 grid, row-major, 64 cells. -/
abbrev Grid := List Cell

def ROWS : Int := 8
def COLS : Int := 8

/-- The in-bounds check `0 <= row < ROWS and 0 <= col < COLS`. -/
def inb (r c : Int) : Prop := 0 ≤ r ∧ r < ROWS ∧ 0 ≤ c ∧ c < COLS

instance (r c : Int) : Decidable (inb r c) := by
  unfold inb ROWS COLS; infer_instance

/-- Flat index of an in-bounds position. -/
def idx (r c : Int) : Nat := r.toNat * 8 + c.toNat

/-- `self.board[r][c]` for in-bounds `(r, c)`; `none` out of bounds. -/
def getCell (g : Grid) (r c : Int) : Cell :=
  if inb r c then g.getD (idx r c) none else none

/-- `self.board[r][c] = v` for in-bounds `(r, c)`; no-op out of bounds. -/
def setCell (g : Grid) (r c : Int) (v : Cell) : Grid :=
  if inb r c then g.set (idx r c) v else g

/-- The board state (class `Board`): grid plus the four counters. -/
structure Board where
  board : Grid
  white_left : Int
  black_left : Int
  white_kings : Int
  black_kings : Int
deriving DecidableEq, Repr

/-- `Board.create_board`: three back rows of each color on alternating cells
(`board[row][col] = Piece(color)` for `col in range(row % 2, COLS, 2)`). -/
def create_board : Grid :=
  (List.range 64).map fun i =>
    let r := i / 8
    let c := i % 8
    if r < 3 ∧ c % 2 = r % 2 then some ⟨Color.black, false⟩
    else if 5 ≤ r ∧ c % 2 = r % 2 then some ⟨Color.white, false⟩
    else none

/-- `Board.__init__`: starting layout, 12 pieces per player, no kings. -/
def initialBoard : Board :=
  { board := create_board
    white_left := 12
    black_left := 12
    white_kings := 0
    black_kings := 0 }

abbrev Pos := Int × Int

/-- `Board.move_piece`: clears `start`, stores the piece at `end`, then runs
the promotion check.  `piece.make_king()` mutates the very object just stored
at `end`, so the cell at `end` holds the promoted piece value. -/
def move_piece (b : Board) (piece : Piece) (s e : Pos) : Board :=
  let g1 := setCell b.board s.1 s.2 none
  if e.1 = ROWS - 1 ∧ piece.color = Color.white then
    { b with board := setCell g1 e.1 e.2 (some { piece with king := true })
             white_kings := b.white_kings + 1 }
  else if e.1 = 0 ∧ piece.color = Color.black then
    { b with board := setCell g1 e.1 e.2 (some { piece with king := true })
             black_kings := b.black_kings + 1 }
  else
    { b with board := setCell g1 e.1 e.2 (some piece) }

/-- One iteration of `Board.remove_piece`'s loop: if the cell holds a piece,
decrement that color's counters and clear the cell. -/
def removeOne (b : Board) (pos : Pos) : Board :=
  match getCell b.board pos.1 pos.2 with
  | none => b
  | some q =>
      if q.color = Color.white then
        { b with board := setCell b.board pos.1 pos.2 none
                 white_left := b.white_left - 1
                 white_kings := if q.king then b.white_kings - 1 else b.white_kings }
      else
        { b with board := setCell b.board pos.1 pos.2 none
                 black_left := b.black_left - 1
                 black_kings := if q.king then b.black_kings - 1 else b.black_kings }

/-- `Board.remove_piece`: remove every captured position in order. -/
def remove_piece (b : Board) (pieces : List Pos) : Board :=
  pieces.foldl removeOne b

/-- `Board.get_piece`. -/
def get_piece (b : Board) (r c : Int) : Cell := getCell b.board r c

/-- `Board.get_all_pieces`: every `(piece, row, col)` of the color, row-major. -/
def get_all_pieces (b : Board) (color : Color) : List (Piece × Int × Int) :=
  (List.range 8).flatMap fun r =>
    (List.range 8).filterMap fun c =>
      match getCell b.board (r : Int) (c : Int) with
      | some p => if p.color = color then some (p, (r : Int), (c : Int)) else none
      | none => none

abbrev MoveEntry := Pos × List Pos

/-- `Board._traverse`: one diagonal step from `(sr, sc)`, recording either a
simple move onto an empty adjacent cell or a single jump over an enemy piece
onto an empty landing cell.  The `dep` argument mirrors the unused `depth`
parameter of the Python helper. -/
def _traverse (b : Board) (sr sc ri ci : Int) (color : Color)
    (skipped : List Pos) (_depth : Nat) : List MoveEntry :=
  let r := sr + ri
  let c := sc + ci
  if inb r c then
    match getCell b.board r c with
    | none => [((r, c), skipped)]
    | some np =>
        if np.color ≠ color then
          let nr := r + ri
          let nc := c + ci
          if inb nr nc ∧ getCell b.board nr nc = none then
            [((nr, nc), skipped ++ [(r, c)])]
          else []
        else []
  else []

/-- `Board.get_valid_moves`: the four `_traverse` calls in program order;
forward pair for white or kings, backward pair for black or kings. -/
def get_valid_moves (b : Board) (piece : Piece) (row col : Int) : List MoveEntry :=
  (if piece.color = Color.white ∨ piece.king then
    _traverse b row col (-1) (-1) piece.color [] 1 ++
    _traverse b row col (-1) 1 piece.color [] 1
  else []) ++
  (if piece.color = Color.black ∨ piece.king then
    _traverse b row col 1 (-1) piece.color [] 1 ++
    _traverse b row col 1 1 piece.color [] 1
  else [])

/-- Scores: rationals together with `float('-inf')` and `float('inf')`. -/
abbrev Score := WithBot (WithTop ℚ)

/-- A finite score. -/
def fin (q : ℚ) : Score := ((q : WithTop ℚ) : Score)

/-- `Board.evaluate`: material difference plus half a point per king. -/
def evaluate (b : Board) : Score :=
  fin ((b.white_left - b.black_left : ℚ) + (b.white_kings - b.black_kings : ℚ) * (1 / 2))

/-- `Board.is_terminal`: a piece counter reached zero. -/
def is_terminal (b : Board) : Prop :=
  b.white_left = 0 ∨ b.black_left = 0

instance (b : Board) : Decidable (is_terminal b) := by
  unfold is_terminal; infer_instance

/-- `Board.clone`: `copy.deepcopy` of a value is the value itself here; the
object-identity effects of sharing are treated in the heap model below. -/
def clone (b : Board) : Board := b

/-- A best move as returned by `minimax`: `(piece, (row, col), move)`. -/
abbrev Sel := Piece × Pos × Pos

/-- The board a child of the search explores: the clone after
`move_piece` and `remove_piece` for the candidate `(move, skipped)`. -/
def child (b : Board) (p : Piece) (rc : Pos) (mv : MoveEntry) : Board :=
  remove_piece (move_piece (clone b) p rc mv.1) mv.2

/-- Inner loop of the maximizing branch of `minimax` over the current piece's
moves.  `f` is the recursive call at depth-1 (it receives the current alpha).
State: `max_eval`, `alpha`, `best_move`.  On `beta ≤ alpha` the loop `break`s,
returning the state; the caller goes on with the next piece. -/
def loopMovesMax (f : Score → Board → Score) (b : Board) (p : Piece) (rc : Pos)
    (beta : Score) : List MoveEntry → Score → Score → Option Sel → Score × Score × Option Sel
  | [], me, al, best => (me, al, best)
  | mv :: rest, me, al, best =>
      let e := f al (child b p rc mv)
      let best' := if me < e then some (p, rc, mv.1) else best
      let me' := max me e
      let al' := max al e
      if beta ≤ al' then (me', al', best')
      else loopMovesMax f b p rc beta rest me' al' best'

/-- Outer loop of the maximizing branch over `get_all_pieces(WHITE)`. -/
def loopPiecesMax (f : Score → Board → Score) (b : Board) (beta : Score) :
    List (Piece × Int × Int) → Score → Score → Option Sel → Score × Score × Option Sel
  | [], me, al, best => (me, al, best)
  | (p, r, c) :: rest, me, al, best =>
      let s := loopMovesMax f b p (r, c) beta (get_valid_moves b p r c) me al best
      loopPiecesMax f b beta rest s.1 s.2.1 s.2.2

/-- Inner loop of the minimizing branch; state `min_eval`, `beta`, `best_move`. -/
def loopMovesMin (f : Score → Board → Score) (b : Board) (p : Piece) (rc : Pos)
    (alpha : Score) : List MoveEntry → Score → Score → Option Sel → Score × Score × Option Sel
  | [], me, bt, best => (me, bt, best)
  | mv :: rest, me, bt, best =>
      let e := f bt (child b p rc mv)
      let best' := if e < me then some (p, rc, mv.1) else best
      let me' := min me e
      let bt' := min bt e
      if bt' ≤ alpha then (me', bt', best')
      else loopMovesMin f b p rc alpha rest me' bt' best'

/-- Outer loop of the minimizing branch over `get_all_pieces(BLACK)`. -/
def loopPiecesMin (f : Score → Board → Score) (b : Board) (alpha : Score) :
    List (Piece × Int × Int) → Score → Score → Option Sel → Score × Score × Option Sel
  | [], me, bt, best => (me, bt, best)
  | (p, r, c) :: rest, me, bt, best =>
      let s := loopMovesMin f b p (r, c) alpha (get_valid_moves b p r c) me bt best
      loopPiecesMin f b alpha rest s.1 s.2.1 s.2.2

/-- `minimax`: alpha-beta search.  On `depth == 0` or a terminal board it
returns `(board.evaluate(), None)`; otherwise it scans the side to move's
pieces (white iff maximizing) and their valid moves, recursing on clones. -/
def minimax : Board → Nat → Score → Score → Bool → Score × Option Sel
  | b, 0, _, _, _ => (evaluate b, none)
  | b, d + 1, alpha, beta, maximizing_player =>
      if is_terminal b then (evaluate b, none)
      else if maximizing_player then
        let s := loopPiecesMax (fun a nb => (minimax nb d a beta false).1) b beta
          (get_all_pieces b Color.white) ⊥ alpha none
        (s.1, s.2.2)
      else
        let s := loopPiecesMin (fun bt nb => (minimax nb d alpha bt true).1) b alpha
          (get_all_pieces b Color.black) ⊤ beta none
        (s.1, s.2.2)

/-- Modelled from the spec: the unpruned reference search of §8's alpha-beta
equivalence property — "a full unpruned minimax over the same tree (same
piece scan order and move order, no alpha-beta cutoffs)".  It folds
`max`/`min` over every child of the node, with no alpha, beta, or break. -/
def fullMoves (g : Board → Score) (mix : Score → Score → Score) (b : Board)
    (p : Piece) (rc : Pos) (ms : List MoveEntry) (v : Score) : Score :=
  ms.foldl (fun v mv => mix v (g (child b p rc mv))) v

/-- Modelled from the spec: outer fold of the unpruned reference search. -/
def fullPieces (g : Board → Score) (mix : Score → Score → Score) (b : Board)
    (ps : List (Piece × Int × Int)) (v : Score) : Score :=
  ps.foldl (fun v pc => fullMoves g mix b pc.1 (pc.2.1, pc.2.2)
    (get_valid_moves b pc.1 pc.2.1 pc.2.2) v) v

/-- Modelled from the spec: the unpruned minimax score over the same tree. -/
def minimaxFull : Board → Nat → Bool → Score
  | b, 0, _ => evaluate b
  | b, d + 1, maximizing_player =>
      if is_terminal b then evaluate b
      else if maximizing_player then
        fullPieces (fun nb => minimaxFull nb d false) max b (get_all_pieces b Color.white) ⊥
      else
        fullPieces (fun nb => minimaxFull nb d true) min b (get_all_pieces b Color.black) ⊤

/-! ### List helpers -/

theorem getD_set_ne {α : Type} (d : α) :
    ∀ (l : List α) (i j : Nat) (v : α), i ≠ j → (l.set i v).getD j d = l.getD j d
  | [], _, _, _, _ => rfl
  | _ :: _, 0, 0, _, h => absurd rfl h
  | _ :: _, 0, _ + 1, _, _ => rfl
  | _ :: _, _ + 1, 0, _, _ => rfl
  | _ :: t, i + 1, j + 1, v, h =>
      getD_set_ne d t i j v (fun he => h (by omega))

theorem getD_set_self {α : Type} (d : α) :
    ∀ (l : List α) (i : Nat) (v : α), i < l.length → (l.set i v).getD i d = v
  | [], i, _, h => absurd h (by simp)
  | _ :: _, 0, _, _ => rfl
  | _ :: t, i + 1, v, h => getD_set_self d t i v (by simpa using h)

theorem countP_set (p : α → Bool) (d : α) :
    ∀ (l : List α) (i : Nat) (v : α), i < l.length →
      (l.set i v).countP p + (if p (l.getD i d) then 1 else 0) =
        l.countP p + (if p v then 1 else 0)
  | [], i, _, h => absurd h (by simp)
  | a :: t, 0, v, _ => by
      simp only [List.set, List.countP_cons, List.getD_cons_zero]
      omega
  | a :: t, i + 1, v, h => by
      simp only [List.set, List.countP_cons, List.getD_cons_succ]
      have := countP_set p d t i v (by simpa using h)
      omega

theorem length_set_eq {α : Type} (l : List α) (i : Nat) (v : α) :
    (l.set i v).length = l.length := by
  simp

theorem set_of_getD {α : Type} (d : α) :
    ∀ (l : List α) (i : Nat), i < l.length → l.set i (l.getD i d) = l
  | [], i, h => absurd h (by simp)
  | a :: t, 0, _ => rfl
  | a :: t, i + 1, h => by
      simpa [List.set] using set_of_getD d t i (by simpa using h)

/-! ### Cell access lemmas -/

theorem idx_inj {r c r' c' : Int} (h : inb r c) (h' : inb r' c')
    (he : idx r c = idx r' c') : r = r' ∧ c = c' := by
  obtain ⟨h1, h2, h3, h4⟩ := h
  obtain ⟨h5, h6, h7, h8⟩ := h'
  unfold ROWS COLS at *
  unfold idx at he
  omega

theorem idx_lt (h : inb r c) : idx r c < 64 := by
  obtain ⟨h1, h2, h3, h4⟩ := h
  unfold ROWS COLS at *
  unfold idx
  omega

theorem getCell_some_inb {g : Grid} {r c : Int} {p : Piece}
    (h : getCell g r c = some p) : inb r c := by
  unfold getCell at h
  by_cases hb : inb r c
  · exact hb
  · simp [hb] at h

theorem getCell_setCell_ne (g : Grid) {r c r' c' : Int} (v : Cell)
    (hne : ¬(r = r' ∧ c = c')) :
    getCell (setCell g r c v) r' c' = getCell g r' c' := by
  unfold getCell setCell
  by_cases h1 : inb r c
  · by_cases h2 : inb r' c'
    · simp only [h1, h2, if_true]
      exact getD_set_ne none g _ _ v (fun he => hne (idx_inj h1 h2 he))
    · simp [h2]
  · simp [h1]

theorem getCell_setCell_self (g : Grid) {r c : Int} (v : Cell)
    (hb : inb r c) (hl : g.length = 64) :
    getCell (setCell g r c v) r c = v := by
  unfold getCell setCell
  simp only [hb, if_true]
  exact getD_set_self none g _ v (by rw [hl]; exact idx_lt hb)

theorem setCell_length (g : Grid) (r c : Int) (v : Cell) :
    (setCell g r c v).length = g.length := by
  unfold setCell
  by_cases h : inb r c <;> simp [h]

/-! ### Move generator: destination specification -/

/-- Everything `_traverse` guarantees about an entry it returns. -/
theorem traverse_mem_spec {b : Board} {sr sc ri ci : Int} {color : Color}
    {sk : List Pos} {dep : Nat} {dst : Pos} {caps : List Pos}
    (h : (dst, caps) ∈ _traverse b sr sc ri ci color sk dep) :
    (dst = (sr + ri, sc + ci) ∧ caps = sk ∧ inb dst.1 dst.2 ∧
      getCell b.board dst.1 dst.2 = none) ∨
    (dst = (sr + ri + ri, sc + ci + ci) ∧ caps = sk ++ [(sr + ri, sc + ci)] ∧
      inb dst.1 dst.2 ∧ getCell b.board dst.1 dst.2 = none ∧
      ∃ q : Piece, getCell b.board (sr + ri) (sc + ci) = some q ∧ q.color ≠ color) := by
  unfold _traverse at h
  by_cases h1 : inb (sr + ri) (sc + ci)
  · rw [if_pos h1] at h
    cases hc : getCell b.board (sr + ri) (sc + ci) with
    | none =>
        rw [hc] at h
        dsimp only at h
        simp only [List.mem_singleton, Prod.mk.injEq] at h
        refine Or.inl ⟨by rw [h.1], h.2, by rw [h.1]; exact h1, ?_⟩
        rw [h.1]
        exact hc
    | some np =>
        rw [hc] at h
        dsimp only at h
        by_cases h2 : np.color ≠ color
        · rw [if_pos h2] at h
          by_cases h3 : inb (sr + ri + ri) (sc + ci + ci) ∧
              getCell b.board (sr + ri + ri) (sc + ci + ci) = none
          · rw [if_pos h3] at h
            simp only [List.mem_singleton, Prod.mk.injEq] at h
            exact Or.inr ⟨by rw [h.1], h.2, by rw [h.1]; exact h3.1,
              by rw [h.1]; exact h3.2, np, rfl, h2⟩
          · rw [if_neg h3] at h
            exact absurd h (List.not_mem_nil _)
        · rw [if_neg h2] at h
          exact absurd h (List.not_mem_nil _)
  · rw [if_neg h1] at h
    exact absurd h (List.not_mem_nil _)

/-- Any entry of `get_valid_moves` comes from one of the four `_traverse`
calls, whose direction is enabled by the piece's color or king flag. -/
theorem gvm_mem_spec {b : Board} {p : Piece} {row col : Int} {dst : Pos}
    {caps : List Pos} (h : (dst, caps) ∈ get_valid_moves b p row col) :
    ∃ ri ci : Int, (ci = -1 ∨ ci = 1) ∧
      ((ri = -1 ∧ (p.color = Color.white ∨ p.king)) ∨
       (ri = 1 ∧ (p.color = Color.black ∨ p.king))) ∧
      (dst, caps) ∈ _traverse b row col ri ci p.color [] 1 := by
  unfold get_valid_moves at h
  rcases List.mem_append.1 h with h' | h'
  · by_cases hw : p.color = Color.white ∨ p.king
    · simp only [hw, if_true] at h'
      rcases List.mem_append.1 h' with h'' | h''
      · exact ⟨-1, -1, Or.inl rfl, Or.inl ⟨rfl, hw⟩, h''⟩
      · exact ⟨-1, 1, Or.inr rfl, Or.inl ⟨rfl, hw⟩, h''⟩
    · simp [hw] at h'
  · by_cases hb : p.color = Color.black ∨ p.king
    · simp only [hb, if_true] at h'
      rcases List.mem_append.1 h' with h'' | h''
      · exact ⟨1, -1, Or.inl rfl, Or.inr ⟨rfl, hb⟩, h''⟩
      · exact ⟨1, 1, Or.inr rfl, Or.inr ⟨rfl, hb⟩, h''⟩
    · simp [hb] at h'

/-- A valid destination is an in-bounds empty cell. -/
theorem gvm_dest_empty {b : Board} {p : Piece} {row col : Int} {dst : Pos}
    {caps : List Pos} (h : (dst, caps) ∈ get_valid_moves b p row col) :
    inb dst.1 dst.2 ∧ getCell b.board dst.1 dst.2 = none := by
  obtain ⟨ri, ci, _, _, ht⟩ := gvm_mem_spec h
  rcases traverse_mem_spec ht with ⟨_, _, hb, he⟩ | ⟨_, _, hb, he, _⟩ <;> exact ⟨hb, he⟩

/-- The capture list of a valid move is empty or the single jumped cell,
which holds a piece of the opposite color and differs from the destination. -/
theorem gvm_caps_spec {b : Board} {p : Piece} {row col : Int} {dst : Pos}
    {caps : List Pos} (h : (dst, caps) ∈ get_valid_moves b p row col) :
    caps = [] ∨ ∃ j : Pos, caps = [j] ∧ j ≠ dst ∧
      ∃ q : Piece, getCell b.board j.1 j.2 = some q ∧ q.color ≠ p.color := by
  obtain ⟨ri, ci, hci, hri, ht⟩ := gvm_mem_spec h
  rcases traverse_mem_spec ht with ⟨_, hc, _, _⟩ | ⟨hd, hc, _, he, q, hq, hqc⟩
  · exact Or.inl hc
  · refine Or.inr ⟨(row + ri, col + ci), by simpa using hc, ?_, q, hq, hqc⟩
    intro hj
    rw [← hj] at he
    simp only at he
    rw [hq] at he
    exact Option.noConfusion he

/-- A valid destination's row is the start row shifted once or twice in an
enabled direction; hence a non-king's move never lands on its promotion row. -/
theorem gvm_no_promotion {b : Board} {p : Piece} {row col : Int} {dst : Pos}
    {caps : List Pos} (h : (dst, caps) ∈ get_valid_moves b p row col)
    (hrow : inb row col) (hk : p.king = false) :
    ¬(dst.1 = ROWS - 1 ∧ p.color = Color.white) ∧ ¬(dst.1 = 0 ∧ p.color = Color.black) := by
  obtain ⟨ri, ci, hci, hri, ht⟩ := gvm_mem_spec h
  obtain ⟨hr0, hr8, _, _⟩ := hrow
  unfold ROWS at *
  have hd1 : dst.1 = row + ri ∨ dst.1 = row + ri + ri := by
    rcases traverse_mem_spec ht with ⟨hd, _, _, _⟩ | ⟨hd, _, _, _, _⟩
    · exact Or.inl (by rw [hd])
    · exact Or.inr (by rw [hd])
  constructor
  · rintro ⟨hdr, hcw⟩
    rcases hri with ⟨hri, _⟩ | ⟨hri, hcb⟩
    · omega
    · rcases hcb with hcb | hcb
      · rw [hcw] at hcb; exact Color.noConfusion hcb
      · rw [hk] at hcb; exact Bool.noConfusion hcb
  · rintro ⟨hdr, hcb⟩
    rcases hri with ⟨hri, hcw⟩ | ⟨hri, _⟩
    · rcases hcw with hcw | hcw
      · rw [hcb] at hcw; exact Color.noConfusion hcw
      · rw [hk] at hcw; exact Bool.noConfusion hcw
    · omega

/-! ### Concrete boards used by counterexamples and witnesses -/

/-- The empty grid. -/
def emptyGrid : Grid := (List.range 64).map fun _ => none

/-- A board with a single white king at `(6, 6)` and a black man at `(0, 1)`;
the counters match the grid. -/
def kingBoard : Board :=
  { board := setCell (setCell emptyGrid 6 6 (some ⟨Color.white, true⟩))
      0 1 (some ⟨Color.black, false⟩)
    white_left := 1
    black_left := 1
    white_kings := 1
    black_kings := 0 }

/-! ### C1: promotion on the far rank -/

/-- A movement direction of a piece: the two forward diagonals for a regular
piece (up for white, down for black), all four diagonals for a king. -/
def isDir (p : Piece) (ri ci : Int) : Prop :=
  (ci = -1 ∨ ci = 1) ∧
    ((ri = -1 ∧ (p.color = Color.white ∨ p.king)) ∨
     (ri = 1 ∧ (p.color = Color.black ∨ p.king)))

instance (p : Piece) (ri ci : Int) : Decidable (isDir p ri ci) := by
  unfold isDir; infer_instance

/-- C1 fails on the code: moving a piece that is already a white king onto
row 7 leaves its king flag alone but still increments `white_kings` — the
counter is not unchanged as the claim states.  Concretely, moving the white
king of `kingBoard` from `(6, 6)` to `(7, 7)` raises `white_kings` from 1
to 2 even though the moved piece is a king and `(7, 7)` is the far rank for
white. -/
theorem c1_counterexample :
    (Piece.mk Color.white true).king = true ∧
    ((7 : Int) = ROWS - 1 ∧ (Piece.mk Color.white true).color = Color.white) ∧
    (move_piece kingBoard ⟨Color.white, true⟩ (6, 6) (7, 7)).white_kings ≠
      kingBoard.white_kings := by
  decide

/-- C1 amended: if `move_piece` lands a piece on the far rank for its color,
the cell at `end` holds a piece with the king flag set — so for a piece that
is already a king the flag is unchanged — but that color's king counter is
incremented by exactly one on every such landing, whether or not the piece
was already a king (promotion of a not-yet-king increments it exactly once,
as the claim states; re-landing a king is *not* a no-op on the counter). -/
theorem c1_amended (b : Board) (p : Piece) (s e : Pos)
    (hlen : b.board.length = 64) (he : inb e.1 e.2)
    (hfar : (e.1 = ROWS - 1 ∧ p.color = Color.white) ∨ (e.1 = 0 ∧ p.color = Color.black)) :
    getCell (move_piece b p s e).board e.1 e.2 = some { p with king := true } ∧
    (p.color = Color.white →
      (move_piece b p s e).white_kings = b.white_kings + 1 ∧
      (move_piece b p s e).black_kings = b.black_kings) ∧
    (p.color = Color.black →
      (move_piece b p s e).white_kings = b.white_kings ∧
      (move_piece b p s e).black_kings = b.black_kings + 1) := by
  have hlen1 : (setCell b.board s.1 s.2 none).length = 64 := by
    rw [setCell_length]; exact hlen
  unfold move_piece
  rcases hfar with ⟨h1, h2⟩ | ⟨h1, h2⟩
  · rw [if_pos ⟨h1, h2⟩]
    refine ⟨getCell_setCell_self _ _ he hlen1, fun _ => ⟨rfl, rfl⟩, fun hb => ?_⟩
    rw [h2] at hb
    exact absurd hb (by decide)
  · have hne : ¬(e.1 = ROWS - 1 ∧ p.color = Color.white) := by
      rintro ⟨_, hw⟩
      rw [hw] at h2
      exact absurd h2 (by decide)
    rw [if_neg hne, if_pos ⟨h1, h2⟩]
    refine ⟨getCell_setCell_self _ _ he hlen1, fun hw => ?_, fun _ => ⟨rfl, rfl⟩⟩
    rw [hw] at h2
    exact absurd h2 (by decide)

/-! ### C10: frame of `move_piece` -/

/-- C10: `move_piece` touches only the cells `start` (cleared) and `end`
(now holding the moved piece, king flag possibly set by promotion), and never
changes the piece counters `white_left`/`black_left`. -/
theorem c10_move_frame (b : Board) (p : Piece) (s e q : Pos)
    (hlen : b.board.length = 64) (hs : inb s.1 s.2) (he : inb e.1 e.2)
    (hse : s ≠ e) (hqs : q ≠ s) (hqe : q ≠ e) :
    getCell (move_piece b p s e).board q.1 q.2 = getCell b.board q.1 q.2 ∧
    getCell (move_piece b p s e).board s.1 s.2 = none ∧
    (∃ k : Bool, getCell (move_piece b p s e).board e.1 e.2 = some ⟨p.color, k⟩) ∧
    (move_piece b p s e).white_left = b.white_left ∧
    (move_piece b p s e).black_left = b.black_left := by
  have hlen1 : (setCell b.board s.1 s.2 none).length = 64 := by
    rw [setCell_length]; exact hlen
  have hqe' : ¬(e.1 = q.1 ∧ e.2 = q.2) := by
    rintro ⟨h1, h2⟩
    exact hqe (Prod.ext h1.symm h2.symm)
  have hqs' : ¬(s.1 = q.1 ∧ s.2 = q.2) := by
    rintro ⟨h1, h2⟩
    exact hqs (Prod.ext h1.symm h2.symm)
  have hse' : ¬(e.1 = s.1 ∧ e.2 = s.2) := by
    rintro ⟨h1, h2⟩
    exact hse (Prod.ext h1.symm h2.symm)
  have frame : ∀ v : Cell,
      getCell (setCell (setCell b.board s.1 s.2 none) e.1 e.2 v) q.1 q.2 =
        getCell b.board q.1 q.2 := by
    intro v
    rw [getCell_setCell_ne _ _ hqe', getCell_setCell_ne _ _ hqs']
  have startCell : ∀ v : Cell,
      getCell (setCell (setCell b.board s.1 s.2 none) e.1 e.2 v) s.1 s.2 = none := by
    intro v
    rw [getCell_setCell_ne _ _ hse', getCell_setCell_self _ _ hs hlen]
  have endCell : ∀ v : Cell,
      getCell (setCell (setCell b.board s.1 s.2 none) e.1 e.2 v) e.1 e.2 = v :=
    fun v => getCell_setCell_self _ _ he hlen1
  unfold move_piece
  by_cases h1 : e.1 = ROWS - 1 ∧ p.color = Color.white
  · rw [if_pos h1]
    exact ⟨frame _, startCell _, ⟨true, endCell _⟩, rfl, rfl⟩
  · rw [if_neg h1]
    by_cases h2 : e.1 = 0 ∧ p.color = Color.black
    · rw [if_pos h2]
      exact ⟨frame _, startCell _, ⟨true, endCell _⟩, rfl, rfl⟩
    · rw [if_neg h2]
      exact ⟨frame _, startCell _, ⟨p.king, by rw [endCell]⟩, rfl, rfl⟩

/-! ### C4: capture correctness -/

/-- `_traverse` in a direction whose adjacent cell holds an enemy piece and
whose landing cell is in bounds and empty returns exactly the jump. -/
theorem traverse_jump {b : Board} {row col ri ci : Int} {color : Color} {q : Piece}
    (hadj : getCell b.board (row + ri) (col + ci) = some q) (hq : q.color ≠ color)
    (hland : inb (row + ri + ri) (col + ci + ci))
    (hempty : getCell b.board (row + ri + ri) (col + ci + ci) = none) :
    _traverse b row col ri ci color [] 1 =
      [((row + ri + ri, col + ci + ci), [(row + ri, col + ci)])] := by
  unfold _traverse
  rw [if_pos (getCell_some_inb hadj), hadj]
  dsimp only
  rw [if_pos hq, if_pos ⟨hland, hempty⟩, List.nil_append]

/-- `_traverse` in a direction whose adjacent cell holds an enemy piece but
whose landing cell is out of bounds or occupied returns nothing. -/
theorem traverse_blocked {b : Board} {row col ri ci : Int} {color : Color} {q : Piece}
    (hadj : getCell b.board (row + ri) (col + ci) = some q) (hq : q.color ≠ color)
    (hblock : ¬inb (row + ri + ri) (col + ci + ci) ∨
      getCell b.board (row + ri + ri) (col + ci + ci) ≠ none) :
    _traverse b row col ri ci color [] 1 = [] := by
  unfold _traverse
  rw [if_pos (getCell_some_inb hadj), hadj]
  dsimp only
  rw [if_pos hq, if_neg ?_]
  rintro ⟨hin, hemp⟩
  rcases hblock with hb | hb
  · exact hb hin
  · exact hb hemp

/-- Every entry produced by an enabled direction's `_traverse` appears in
`get_valid_moves`. -/
theorem gvm_includes {b : Board} {p : Piece} {row col ri ci : Int}
    (hdir : isDir p ri ci) {entry : MoveEntry}
    (hmem : entry ∈ _traverse b row col ri ci p.color [] 1) :
    entry ∈ get_valid_moves b p row col := by
  obtain ⟨hci, hdir⟩ := hdir
  unfold get_valid_moves
  rcases hdir with ⟨hri, hen⟩ | ⟨hri, hen⟩ <;> subst hri <;> rcases hci with hci | hci <;>
    subst hci
  · exact List.mem_append_left _ (by rw [if_pos hen]; exact List.mem_append_left _ hmem)
  · exact List.mem_append_left _ (by rw [if_pos hen]; exact List.mem_append_right _ hmem)
  · exact List.mem_append_right _ (by rw [if_pos hen]; exact List.mem_append_left _ hmem)
  · exact List.mem_append_right _ (by rw [if_pos hen]; exact List.mem_append_right _ hmem)

/-- C4: with an enemy piece on the adjacent diagonal cell, `get_valid_moves`
contains the jump to the empty in-bounds landing cell with capture list
exactly the jumped cell; and if the landing cell is occupied or out of
bounds, that direction contributes no move at all. -/
theorem c4_capture (b : Board) (p q : Piece) (row col ri ci : Int)
    (hdir : isDir p ri ci)
    (hadj : getCell b.board (row + ri) (col + ci) = some q)
    (hq : q.color ≠ p.color) :
    (inb (row + ri + ri) (col + ci + ci) →
      getCell b.board (row + ri + ri) (col + ci + ci) = none →
      ((row + ri + ri, col + ci + ci), [(row + ri, col + ci)]) ∈
        get_valid_moves b p row col) ∧
    (¬inb (row + ri + ri) (col + ci + ci) ∨
      getCell b.board (row + ri + ri) (col + ci + ci) ≠ none →
      _traverse b row col ri ci p.color [] 1 = []) := by
  constructor
  · intro hland hempty
    exact gvm_includes hdir (by rw [traverse_jump hadj hq hland hempty]; exact List.mem_singleton.2 rfl)
  · exact traverse_blocked hadj hq

/-! ### C7: capture lists have length at most one -/

/-- C7: every capture list in `get_valid_moves` has at most one entry — a
jump records exactly the one jumped cell and never chains. -/
theorem c7_single_capture (b : Board) (p : Piece) (row col : Int) (dst : Pos)
    (caps : List Pos) (h : (dst, caps) ∈ get_valid_moves b p row col) :
    caps.length ≤ 1 := by
  rcases gvm_caps_spec h with hc | ⟨j, hc, _⟩ <;> simp [hc]

/-! ### C2: counter/grid invariant over reachable boards -/

/-- Whether a cell holds a piece of the given color. -/
def cellIsColor (cell : Cell) (col : Color) : Bool :=
  match cell with
  | some p => p.color == col
  | none => false

/-- Number of grid cells holding a piece of the given color. -/
def colorCount (g : Grid) (col : Color) : Nat :=
  g.countP fun cell => cellIsColor cell col

/-- No piece on the grid is a king. -/
def kingFree (g : Grid) : Prop :=
  ∀ (r c : Int) (p : Piece), getCell g r c = some p → p.king = false

/-- The strengthened induction invariant: counters match the grid, and (since
the promotion rows are on the wrong side for each color, no legal move can
ever promote) there are no kings at all. -/
def goodBoard (b : Board) : Prop :=
  b.board.length = 64 ∧
  b.white_left = (colorCount b.board Color.white : Int) ∧
  b.black_left = (colorCount b.board Color.black : Int) ∧
  b.white_kings = 0 ∧ b.black_kings = 0 ∧ kingFree b.board

/-- Boards reachable from the starting layout by legal `move_piece` steps
followed by `remove_piece` of the move's capture list (claim C2's reachable
set; turn order is not restricted). -/
inductive Reachable : Board → Prop
  | init : Reachable initialBoard
  | step {b : Board} {p : Piece} {r c : Int} {mv : Pos} {caps : List Pos} :
      Reachable b → getCell b.board r c = some p →
      (mv, caps) ∈ get_valid_moves b p r c →
      Reachable (remove_piece (move_piece b p (r, c) mv) caps)

theorem getD_eq_some_mem : ∀ (l : Grid) (i : Nat) (p : Piece),
    l.getD i none = some p → some p ∈ l
  | [], i, p, h => by simp [List.getD] at h
  | a :: t, 0, p, h => by rw [List.getD_cons_zero] at h; exact h ▸ List.mem_cons_self a t
  | a :: t, i + 1, p, h => by
      rw [List.getD_cons_succ] at h
      exact List.mem_cons_of_mem a (getD_eq_some_mem t i p h)

theorem kingFree_of_all {g : Grid}
    (h : g.all (fun cell => match cell with
      | some p => !p.king
      | none => true) = true) : kingFree g := by
  intro r c p hp
  unfold getCell at hp
  by_cases hb : inb r c
  · rw [if_pos hb] at hp
    have hmem := getD_eq_some_mem g (idx r c) p hp
    have := (List.all_eq_true.1 h) _ hmem
    simpa using this
  · rw [if_neg hb] at hp
    exact Option.noConfusion hp

theorem initial_good : goodBoard initialBoard := by
  refine ⟨by decide, by decide, by decide, rfl, rfl, kingFree_of_all (by decide)⟩

theorem colorCount_setCell (g : Grid) (r c : Int) (v : Cell) (col : Color)
    (hb : inb r c) (hl : g.length = 64) :
    colorCount (setCell g r c v) col + (if cellIsColor (getCell g r c) col then 1 else 0) =
      colorCount g col + (if cellIsColor v col then 1 else 0) := by
  unfold colorCount setCell getCell
  rw [if_pos hb, if_pos hb]
  exact countP_set _ none g (idx r c) v (by rw [hl]; exact idx_lt hb)

theorem getD_none_of_le {α : Type} (d : α) :
    ∀ (l : List α) (i : Nat), l.length ≤ i → l.getD i d = d
  | [], _, _ => rfl
  | _ :: _, 0, h => absurd h (by simp)
  | _ :: t, i + 1, h => getD_none_of_le d t i (by simpa using h)

theorem kingFree_setCell {g : Grid} (hg : kingFree g) {r c : Int} {v : Cell}
    (hv : ∀ p : Piece, v = some p → p.king = false) :
    kingFree (setCell g r c v) := by
  intro r' c' p hp
  by_cases he : r = r' ∧ c = c'
  · obtain ⟨rfl, rfl⟩ := he
    unfold setCell at hp
    by_cases hb : inb r c
    · rw [if_pos hb] at hp
      unfold getCell at hp
      rw [if_pos hb] at hp
      by_cases hlt : idx r c < g.length
      · rw [getD_set_self none g _ v hlt] at hp
        exact hv p hp
      · rw [getD_none_of_le none _ _ (by rw [length_set_eq]; omega)] at hp
        exact Option.noConfusion hp
    · rw [if_neg hb] at hp
      exact hg _ _ _ hp
  · rw [getCell_setCell_ne g v he] at hp
    exact hg _ _ _ hp

/-- `removeOne` keeps the invariant (any position, occupied or not). -/
theorem removeOne_good {b : Board} (h : goodBoard b) (pos : Pos) :
    goodBoard (removeOne b pos) := by
  obtain ⟨hlen, hw, hbk, hwk, hbkk, hkf⟩ := h
  unfold removeOne
  cases hc : getCell b.board pos.1 pos.2 with
  | none => exact ⟨hlen, hw, hbk, hwk, hbkk, hkf⟩
  | some q =>
      have hb : inb pos.1 pos.2 := getCell_some_inb hc
      have hkq : q.king = false := hkf _ _ _ hc
      have hcw := colorCount_setCell b.board pos.1 pos.2 none Color.white hb hlen
      have hcb := colorCount_setCell b.board pos.1 pos.2 none Color.black hb hlen
      rw [hc] at hcw hcb
      have hkf' : kingFree (setCell b.board pos.1 pos.2 none) :=
        kingFree_setCell hkf (fun p hp => Option.noConfusion hp)
      have hlen' : (setCell b.board pos.1 pos.2 none).length = 64 := by
        rw [setCell_length]; exact hlen
      dsimp only
      cases hqc : q.color with
      | white =>
          rw [if_pos rfl, hkq]
          simp only [cellIsColor] at hcw hcb
          simp [hqc] at hcw hcb
          refine ⟨hlen', ?_, ?_, ?_, ?_, hkf'⟩
          · dsimp only; omega
          · dsimp only; omega
          · simpa using hwk
          · simpa using hbkk
      | black =>
          rw [if_neg (by decide), hkq]
          simp only [cellIsColor] at hcw hcb
          simp [hqc] at hcw hcb
          refine ⟨hlen', ?_, ?_, ?_, ?_, hkf'⟩
          · dsimp only; omega
          · dsimp only; omega
          · simpa using hwk
          · simpa using hbkk

theorem remove_piece_good {b : Board} (h : goodBoard b) (caps : List Pos) :
    goodBoard (remove_piece b caps) := by
  induction caps generalizing b with
  | nil => exact h
  | cons j t ih => exact ih (removeOne_good h j)

/-- A legal `move_piece` keeps the invariant: the destination is an empty
in-bounds cell, and a legal move never lands on the mover's promotion row. -/
theorem move_piece_good {b : Board} {p : Piece} {r c : Int} {mv : Pos} {caps : List Pos}
    (h : goodBoard b) (hp : getCell b.board r c = some p)
    (hmv : (mv, caps) ∈ get_valid_moves b p r c) :
    goodBoard (move_piece b p (r, c) mv) := by
  obtain ⟨hlen, hw, hbk, hwk, hbkk, hkf⟩ := h
  have hrc : inb r c := getCell_some_inb hp
  have hkp : p.king = false := hkf _ _ _ hp
  have hdest := gvm_dest_empty hmv
  have hnopromo := gvm_no_promotion hmv hrc hkp
  have hne : ¬(r = mv.1 ∧ c = mv.2) := by
    rintro ⟨h1, h2⟩
    rw [← h1, ← h2] at hdest
    rw [hp] at hdest
    exact Option.noConfusion hdest.2
  unfold move_piece
  rw [if_neg hnopromo.1, if_neg hnopromo.2]
  have hlen1 : (setCell b.board r c none).length = 64 := by
    rw [setCell_length]; exact hlen
  have hmid : getCell (setCell b.board r c none) mv.1 mv.2 = none := by
    rw [getCell_setCell_ne _ _ hne]; exact hdest.2
  have count2 : ∀ col, colorCount (setCell (setCell b.board r c none) mv.1 mv.2 (some p)) col =
      colorCount b.board col := by
    intro col
    have h1 := colorCount_setCell b.board r c none col hrc hlen
    have h2 := colorCount_setCell (setCell b.board r c none) mv.1 mv.2 (some p) col hdest.1 hlen1
    rw [hp] at h1
    rw [hmid] at h2
    simp only [cellIsColor] at h1 h2 ⊢
    omega
  refine ⟨by rw [setCell_length, setCell_length]; exact hlen, ?_, ?_, hwk, hbkk, ?_⟩
  · rw [count2 Color.white]; exact hw
  · rw [count2 Color.black]; exact hbk
  · exact kingFree_setCell (kingFree_setCell hkf (fun q hq => Option.noConfusion hq))
      (fun q hq => by rw [← Option.some.inj hq]; exact hkp)

theorem reachable_good {b : Board} (h : Reachable b) : goodBoard b := by
  induction h with
  | init => exact initial_good
  | step hb hp hmv ih => exact remove_piece_good (move_piece_good ih hp hmv) _

/-- C2: on every board reachable from the starting layout by legal moves and
their capture removals, each color's piece counter equals the number of grid
cells holding that color, and its king counter is at most the piece counter. -/
theorem c2_reachable_invariant (b : Board) (h : Reachable b) :
    b.white_left = (colorCount b.board Color.white : Int) ∧
    b.black_left = (colorCount b.board Color.black : Int) ∧
    b.white_kings ≤ b.white_left ∧ b.black_kings ≤ b.black_left := by
  obtain ⟨_, hw, hbk, hwk, hbkk, _⟩ := reachable_good h
  refine ⟨hw, hbk, ?_, ?_⟩
  · rw [hwk, hw]
    exact Int.natCast_nonneg _
  · rw [hbkk, hbk]
    exact Int.natCast_nonneg _

/-! ### C3: the pruned search at the full window equals the unpruned search

The induction invariant, for a node with window `(α, β)`, pruned score `r`
and unpruned score `v`, is the pair

* `min v β ≤ max α r`  (the pruned score under-approximates `v` only below
  the window), and
* `min r β ≤ max α v`  (it over-approximates `v` only above the window).

At the full window `(⊥, ⊤)` the two force `r = v`.  The invariants survive
the program's inner-loop-scoped `break`: once `β ≤ α` holds at a maximizing
node, `β ≤ max α r` already holds for the final `r`, so skipped children are
absorbed; dually at minimizing nodes. -/

theorem le_fullMoves (g : Board → Score) (b : Board) (p : Piece) (rc : Pos) :
    ∀ (ms : List MoveEntry) (v : Score), v ≤ fullMoves g max b p rc ms v
  | [], v => le_refl v
  | mv :: rest, v =>
      le_trans (le_max_left v (g (child b p rc mv))) (le_fullMoves g b p rc rest _)

theorem fullMoves_le (g : Board → Score) (b : Board) (p : Piece) (rc : Pos) :
    ∀ (ms : List MoveEntry) (v : Score), fullMoves g min b p rc ms v ≤ v
  | [], v => le_refl v
  | mv :: rest, v =>
      le_trans (fullMoves_le g b p rc rest _) (min_le_left v (g (child b p rc mv)))

/-- The maximizing inner loop keeps `alpha = max α₀ max_eval` and only ever
raises `max_eval`. -/
theorem movesMax_shape (f : Score → Board → Score) (b : Board) (p : Piece) (rc : Pos)
    (al0 be : Score) :
    ∀ (ms : List MoveEntry) (me : Score) (best : Option Sel),
      ∃ me' best', loopMovesMax f b p rc be ms me (max al0 me) best =
        (me', max al0 me', best') ∧ me ≤ me'
  | [], me, best => ⟨me, best, rfl, le_refl me⟩
  | mv :: rest, me, best => by
      rw [loopMovesMax]
      rw [max_assoc]
      by_cases hbr : be ≤ max al0 (max me (f (max al0 me) (child b p rc mv)))
      · rw [if_pos hbr]
        exact ⟨_, _, rfl, le_max_left _ _⟩
      · rw [if_neg hbr]
        obtain ⟨me', best', heq, hle⟩ := movesMax_shape f b p rc al0 be rest
          (max me (f (max al0 me) (child b p rc mv)))
          (if me < f (max al0 me) (child b p rc mv) then some (p, rc, mv.1) else best)
        exact ⟨me', best', heq, le_trans (le_max_left _ _) hle⟩

/-- Maximizing inner loop, lower invariant: the unpruned fold stays bounded
by `max α₀` of the pruned running maximum. -/
theorem movesMax_le (f : Score → Board → Score) (g : Board → Score) (b : Board)
    (p : Piece) (rc : Pos) (al0 be : Score)
    (hfg : ∀ (a : Score) (nb : Board), min (g nb) be ≤ max (f a nb) a) :
    ∀ (ms : List MoveEntry) (me : Score) (best : Option Sel) (v : Score),
      min v be ≤ max al0 me →
      min (fullMoves g max b p rc ms v) be ≤
        max al0 (loopMovesMax f b p rc be ms me (max al0 me) best).1
  | [], _, _, _, hv => hv
  | mv :: rest, me, best, v, hv => by
      rw [loopMovesMax]
      rw [max_assoc]
      set e := f (max al0 me) (child b p rc mv) with he
      set gc := g (child b p rc mv) with hgcdef
      have hgc : min gc be ≤ max al0 (max me e) := by
        calc min gc be ≤ max e (max al0 me) := hfg _ _
        _ = max al0 (max me e) := by
            rw [max_comm e (max al0 me), max_assoc]
      have hstep : min (max v gc) be ≤ max al0 (max me e) := by
        rw [min_max_distrib_right]
        exact max_le (le_trans hv (max_le_max (le_refl al0) (le_max_left me e))) hgc
      by_cases hbr : be ≤ max al0 (max me e)
      · rw [if_pos hbr]
        exact le_trans (min_le_right _ be) hbr
      · rw [if_neg hbr]
        exact movesMax_le f g b p rc al0 be hfg rest (max me e) _ (max v gc) hstep

/-- Maximizing inner loop, upper invariant: the pruned running maximum stays
bounded by `max α₀` of the unpruned fold. -/
theorem movesMax_ge (f : Score → Board → Score) (g : Board → Score) (b : Board)
    (p : Piece) (rc : Pos) (al0 be : Score)
    (hfg2 : ∀ (a : Score) (nb : Board), min (f a nb) be ≤ max (g nb) a) :
    ∀ (ms : List MoveEntry) (me : Score) (best : Option Sel) (v : Score),
      min me be ≤ max al0 v →
      min (loopMovesMax f b p rc be ms me (max al0 me) best).1 be ≤
        max al0 (fullMoves g max b p rc ms v)
  | [], _, _, _, hv => hv
  | mv :: rest, me, best, v, hv => by
      rw [loopMovesMax]
      rw [max_assoc]
      set e := f (max al0 me) (child b p rc mv) with he
      set gc := g (child b p rc mv) with hgcdef
      have hstep : min (max me e) be ≤ max al0 (max v gc) := by
        rcases le_total be me with hbe | hbe
        · rw [min_eq_right (le_trans hbe (le_max_left me e))]
          calc be = min me be := (min_eq_right hbe).symm
          _ ≤ max al0 v := hv
          _ ≤ max al0 (max v gc) := max_le_max (le_refl al0) (le_max_left v gc)
        · have hme : me ≤ max al0 (max v gc) := by
            calc me = min me be := (min_eq_left hbe).symm
            _ ≤ max al0 v := hv
            _ ≤ max al0 (max v gc) := max_le_max (le_refl al0) (le_max_left v gc)
          rw [min_max_distrib_right]
          refine max_le (le_trans (min_le_left me be) hme) ?_
          calc min e be ≤ max gc (max al0 me) := hfg2 _ _
          _ ≤ max al0 (max v gc) :=
              max_le (le_max_of_le_right (le_max_right v gc))
                (max_le (le_max_left al0 _) hme)
      by_cases hbr : be ≤ max al0 (max me e)
      · rw [if_pos hbr]
        exact le_trans hstep (max_le_max (le_refl al0) (le_fullMoves g b p rc rest _))
      · rw [if_neg hbr]
        exact movesMax_ge f g b p rc al0 be hfg2 rest (max me e) _ (max v gc) hstep

theorem piecesMax_shape (f : Score → Board → Score) (b : Board) (al0 be : Score) :
    ∀ (ps : List (Piece × Int × Int)) (me : Score) (best : Option Sel),
      ∃ me' best', loopPiecesMax f b be ps me (max al0 me) best =
        (me', max al0 me', best') ∧ me ≤ me'
  | [], me, best => ⟨me, best, rfl, le_refl me⟩
  | (p, r, c) :: rest, me, best => by
      rw [loopPiecesMax]
      obtain ⟨me1, best1, heq, hle1⟩ :=
        movesMax_shape f b p (r, c) al0 be (get_valid_moves b p r c) me best
      rw [heq]
      obtain ⟨me2, best2, heq2, hle2⟩ := piecesMax_shape f b al0 be rest me1 best1
      exact ⟨me2, best2, heq2, le_trans hle1 hle2⟩

theorem piecesMax_le (f : Score → Board → Score) (g : Board → Score) (b : Board)
    (al0 be : Score)
    (hfg : ∀ (a : Score) (nb : Board), min (g nb) be ≤ max (f a nb) a) :
    ∀ (ps : List (Piece × Int × Int)) (me : Score) (best : Option Sel) (v : Score),
      min v be ≤ max al0 me →
      min (fullPieces g max b ps v) be ≤
        max al0 (loopPiecesMax f b be ps me (max al0 me) best).1
  | [], _, _, _, hv => hv
  | (p, r, c) :: rest, me, best, v, hv => by
      rw [loopPiecesMax]
      obtain ⟨me1, best1, heq, _⟩ :=
        movesMax_shape f b p (r, c) al0 be (get_valid_moves b p r c) me best
      have h1 := movesMax_le f g b p (r, c) al0 be hfg (get_valid_moves b p r c) me best v hv
      rw [heq] at h1 ⊢
      exact piecesMax_le f g b al0 be hfg rest me1 best1 _ h1

theorem piecesMax_ge (f : Score → Board → Score) (g : Board → Score) (b : Board)
    (al0 be : Score)
    (hfg2 : ∀ (a : Score) (nb : Board), min (f a nb) be ≤ max (g nb) a) :
    ∀ (ps : List (Piece × Int × Int)) (me : Score) (best : Option Sel) (v : Score),
      min me be ≤ max al0 v →
      min (loopPiecesMax f b be ps me (max al0 me) best).1 be ≤
        max al0 (fullPieces g max b ps v)
  | [], _, _, _, hv => hv
  | (p, r, c) :: rest, me, best, v, hv => by
      rw [loopPiecesMax]
      obtain ⟨me1, best1, heq, _⟩ :=
        movesMax_shape f b p (r, c) al0 be (get_valid_moves b p r c) me best
      have h1 := movesMax_ge f g b p (r, c) al0 be hfg2 (get_valid_moves b p r c) me best v hv
      rw [heq] at h1
      rw [heq]
      exact piecesMax_ge f g b al0 be hfg2 rest me1 best1 _ h1

/-- The minimizing inner loop keeps `beta = min β₀ min_eval` and only ever
lowers `min_eval`. -/
theorem movesMin_shape (f : Score → Board → Score) (b : Board) (p : Piece) (rc : Pos)
    (be0 al : Score) :
    ∀ (ms : List MoveEntry) (me : Score) (best : Option Sel),
      ∃ me' best', loopMovesMin f b p rc al ms me (min be0 me) best =
        (me', min be0 me', best') ∧ me' ≤ me
  | [], me, best => ⟨me, best, rfl, le_refl me⟩
  | mv :: rest, me, best => by
      rw [loopMovesMin]
      rw [min_assoc]
      by_cases hbr : min be0 (min me (f (min be0 me) (child b p rc mv))) ≤ al
      · rw [if_pos hbr]
        exact ⟨_, _, rfl, min_le_left _ _⟩
      · rw [if_neg hbr]
        obtain ⟨me', best', heq, hle⟩ := movesMin_shape f b p rc be0 al rest
          (min me (f (min be0 me) (child b p rc mv)))
          (if f (min be0 me) (child b p rc mv) < me then some (p, rc, mv.1) else best)
        exact ⟨me', best', heq, le_trans hle (min_le_left _ _)⟩

/-- Minimizing inner loop, upper invariant (dual of `movesMax_le`). -/
theorem movesMin_ge (f : Score → Board → Score) (g : Board → Score) (b : Board)
    (p : Piece) (rc : Pos) (be0 al : Score)
    (hfg : ∀ (bb : Score) (nb : Board), min (f bb nb) bb ≤ max (g nb) al) :
    ∀ (ms : List MoveEntry) (me : Score) (best : Option Sel) (v : Score),
      min me be0 ≤ max v al →
      min (loopMovesMin f b p rc al ms me (min be0 me) best).1 be0 ≤
        max (fullMoves g min b p rc ms v) al
  | [], _, _, _, hv => hv
  | mv :: rest, me, best, v, hv => by
      rw [loopMovesMin]
      rw [min_assoc]
      set e := f (min be0 me) (child b p rc mv) with he
      set gc := g (child b p rc mv) with hgcdef
      have hstep : min (min me e) be0 ≤ max (min v gc) al := by
        rw [max_min_distrib_right]
        refine le_min (le_trans (min_le_min (min_le_left me e) (le_refl be0)) hv) ?_
        have hac : min (min me e) be0 = min e (min be0 me) := by
          simp [min_assoc, min_comm, min_left_comm]
        rw [hac]
        exact le_trans (hfg _ _) (le_refl _)
      by_cases hbr : min be0 (min me e) ≤ al
      · rw [if_pos hbr]
        have : min (min me e) be0 ≤ al := by
          rw [min_comm]
          exact hbr
        exact le_trans this (le_max_right _ al)
      · rw [if_neg hbr]
        exact movesMin_ge f g b p rc be0 al hfg rest (min me e) _ (min v gc) hstep

/-- Minimizing inner loop, lower invariant (dual of `movesMax_ge`). -/
theorem movesMin_le (f : Score → Board → Score) (g : Board → Score) (b : Board)
    (p : Piece) (rc : Pos) (be0 al : Score)
    (hfg2 : ∀ (bb : Score) (nb : Board), min (g nb) bb ≤ max (f bb nb) al) :
    ∀ (ms : List MoveEntry) (me : Score) (best : Option Sel) (v : Score),
      min v be0 ≤ max me al →
      min (fullMoves g min b p rc ms v) be0 ≤
        max (loopMovesMin f b p rc al ms me (min be0 me) best).1 al
  | [], _, _, _, hv => hv
  | mv :: rest, me, best, v, hv => by
      rw [loopMovesMin]
      rw [min_assoc]
      set e := f (min be0 me) (child b p rc mv) with he
      set gc := g (child b p rc mv) with hgcdef
      have hstep : min (min v gc) be0 ≤ max (min me e) al := by
        rcases le_total me al with hma | hma
        · rw [max_eq_right (le_trans (min_le_left me e) hma)]
          have hv' : min v be0 ≤ al := by
            rw [max_eq_right hma] at hv
            exact hv
          exact le_trans (min_le_min (min_le_left v gc) (le_refl be0)) hv'
        · have hvme : min v be0 ≤ me := by
            rw [max_eq_left hma] at hv
            exact hv
          have hchild : min gc (min be0 me) ≤ max e al := hfg2 _ _
          rw [max_min_distrib_right, max_eq_left hma]
          refine le_min ?_ ?_
          · rcases le_total gc (min be0 me) with hg | hg
            · exact le_trans (min_le_left _ _)
                (le_trans (min_le_right v gc) (le_trans hg (min_le_right be0 me)))
            · rcases le_total be0 me with hbm | hbm
              · exact le_trans (min_le_right _ be0) hbm
              · exact le_trans (min_le_min (min_le_left v gc) (le_refl be0)) hvme
          · rcases le_total gc (min be0 me) with hg | hg
            · rw [min_eq_left hg] at hchild
              exact le_trans (min_le_left _ _) (le_trans (min_le_right v gc) hchild)
            · rw [min_eq_right hg] at hchild
              rcases le_total be0 me with hbm | hbm
              · rw [min_eq_left hbm] at hchild
                exact le_trans (min_le_right _ be0) hchild
              · rw [min_eq_right hbm] at hchild
                exact le_trans
                  (le_trans (min_le_min (min_le_left v gc) (le_refl be0)) hvme) hchild
      by_cases hbr : min be0 (min me e) ≤ al
      · rw [if_pos hbr]
        exact le_trans (min_le_min (fullMoves_le g b p rc rest _) (le_refl be0)) hstep
      · rw [if_neg hbr]
        exact movesMin_le f g b p rc be0 al hfg2 rest (min me e) _ (min v gc) hstep

theorem piecesMin_shape (f : Score → Board → Score) (b : Board) (be0 al : Score) :
    ∀ (ps : List (Piece × Int × Int)) (me : Score) (best : Option Sel),
      ∃ me' best', loopPiecesMin f b al ps me (min be0 me) best =
        (me', min be0 me', best') ∧ me' ≤ me
  | [], me, best => ⟨me, best, rfl, le_refl me⟩
  | (p, r, c) :: rest, me, best => by
      rw [loopPiecesMin]
      obtain ⟨me1, best1, heq, hle1⟩ :=
        movesMin_shape f b p (r, c) be0 al (get_valid_moves b p r c) me best
      rw [heq]
      obtain ⟨me2, best2, heq2, hle2⟩ := piecesMin_shape f b be0 al rest me1 best1
      exact ⟨me2, best2, heq2, le_trans hle2 hle1⟩

theorem piecesMin_ge (f : Score → Board → Score) (g : Board → Score) (b : Board)
    (be0 al : Score)
    (hfg : ∀ (bb : Score) (nb : Board), min (f bb nb) bb ≤ max (g nb) al) :
    ∀ (ps : List (Piece × Int × Int)) (me : Score) (best : Option Sel) (v : Score),
      min me be0 ≤ max v al →
      min (loopPiecesMin f b al ps me (min be0 me) best).1 be0 ≤
        max (fullPieces g min b ps v) al
  | [], _, _, _, hv => hv
  | (p, r, c) :: rest, me, best, v, hv => by
      rw [loopPiecesMin]
      obtain ⟨me1, best1, heq, _⟩ :=
        movesMin_shape f b p (r, c) be0 al (get_valid_moves b p r c) me best
      have h1 := movesMin_ge f g b p (r, c) be0 al hfg (get_valid_moves b p r c) me best v hv
      rw [heq] at h1
      rw [heq]
      exact piecesMin_ge f g b be0 al hfg rest me1 best1 _ h1

theorem piecesMin_le (f : Score → Board → Score) (g : Board → Score) (b : Board)
    (be0 al : Score)
    (hfg2 : ∀ (bb : Score) (nb : Board), min (g nb) bb ≤ max (f bb nb) al) :
    ∀ (ps : List (Piece × Int × Int)) (me : Score) (best : Option Sel) (v : Score),
      min v be0 ≤ max me al →
      min (fullPieces g min b ps v) be0 ≤
        max (loopPiecesMin f b al ps me (min be0 me) best).1 al
  | [], _, _, _, hv => hv
  | (p, r, c) :: rest, me, best, v, hv => by
      rw [loopPiecesMin]
      obtain ⟨me1, best1, heq, _⟩ :=
        movesMin_shape f b p (r, c) be0 al (get_valid_moves b p r c) me best
      have h1 := movesMin_le f g b p (r, c) be0 al hfg2 (get_valid_moves b p r c) me best v hv
      rw [heq] at h1 ⊢
      exact piecesMin_le f g b be0 al hfg2 rest me1 best1 _ h1

/-- The two-sided window invariant relating the pruned and unpruned searches,
by induction on the depth. -/
theorem minimax_approx : ∀ (d : Nat) (b : Board) (al be : Score) (m : Bool),
    min (minimaxFull b d m) be ≤ max al (minimax b d al be m).1 ∧
    min (minimax b d al be m).1 be ≤ max al (minimaxFull b d m)
  | 0, b, al, be, m => by
      constructor <;>
        exact le_trans (min_le_left _ _) (le_max_of_le_right (le_refl _))
  | d + 1, b, al, be, m => by
      rw [minimax, minimaxFull]
      by_cases ht : is_terminal b
      · rw [if_pos ht, if_pos ht]
        constructor <;>
          exact le_trans (min_le_left _ _) (le_max_of_le_right (le_refl _))
      · rw [if_neg ht, if_neg ht]
        cases m with
        | true =>
            rw [if_pos rfl, if_pos rfl]
            have hfg : ∀ (a : Score) (nb : Board),
                min (minimaxFull nb d false) be ≤ max a (minimax nb d a be false).1 :=
              fun a nb => (minimax_approx d nb a be false).1
            have hfg2 : ∀ (a : Score) (nb : Board),
                min (minimax nb d a be false).1 be ≤ max a (minimaxFull nb d false) :=
              fun a nb => (minimax_approx d nb a be false).2
            have hbot : al = max al (⊥ : Score) := (max_eq_left bot_le).symm
            constructor
            · have h := piecesMax_le (fun a nb => (minimax nb d a be false).1)
                (fun nb => minimaxFull nb d false) b al be
                (fun a nb => by
                  calc min (minimaxFull nb d false) be ≤
                      max a (minimax nb d a be false).1 := hfg a nb
                  _ = max (minimax nb d a be false).1 a := max_comm _ _)
                (get_all_pieces b Color.white) ⊥ none ⊥
                (le_trans (min_le_left _ _) bot_le)
              rw [← hbot] at h
              exact h
            · have h := piecesMax_ge (fun a nb => (minimax nb d a be false).1)
                (fun nb => minimaxFull nb d false) b al be
                (fun a nb => by
                  calc min (minimax nb d a be false).1 be ≤
                      max a (minimaxFull nb d false) := hfg2 a nb
                  _ = max (minimaxFull nb d false) a := max_comm _ _)
                (get_all_pieces b Color.white) ⊥ none ⊥
                (le_trans (min_le_left _ _) bot_le)
              rw [← hbot] at h
              exact h
        | false =>
            rw [if_neg (by decide), if_neg (by decide)]
            have htop : be = min be (⊤ : Score) := (min_eq_left le_top).symm
            constructor
            · have h := piecesMin_le (fun bt nb => (minimax nb d al bt true).1)
                (fun nb => minimaxFull nb d true) b be al
                (fun bb nb => by
                  calc min (minimaxFull nb d true) bb ≤
                      max al (minimax nb d al bb true).1 :=
                    (minimax_approx d nb al bb true).1
                  _ = max (minimax nb d al bb true).1 al := max_comm _ _)
                (get_all_pieces b Color.black) ⊤ none ⊤
                (le_trans (min_le_left _ _) (le_max_left _ _))
              rw [← htop] at h
              exact le_trans h (le_of_eq (max_comm _ _))
            · have h := piecesMin_ge (fun bt nb => (minimax nb d al bt true).1)
                (fun nb => minimaxFull nb d true) b be al
                (fun bb nb => by
                  calc min (minimax nb d al bb true).1 bb ≤
                      max al (minimaxFull nb d true) :=
                    (minimax_approx d nb al bb true).2
                  _ = max (minimaxFull nb d true) al := max_comm _ _)
                (get_all_pieces b Color.black) ⊤ none ⊤
                (le_trans (min_le_left _ _) (le_max_left _ _))
              rw [← htop] at h
              exact le_trans h (le_of_eq (max_comm _ _))

/-- C3: with the full window `(-∞, +∞)` the pruned `minimax` returns exactly
the score of the full unpruned minimax over the same tree (same piece scan
order, same move order), for every board, depth, and side — despite the
cutoff only breaking the per-piece inner move loop. -/
theorem c3_alphabeta_equiv (b : Board) (d : Nat) (m : Bool) :
    (minimax b d ⊥ ⊤ m).1 = minimaxFull b d m := by
  have h1 := (minimax_approx d b ⊥ ⊤ m).1
  have h2 := (minimax_approx d b ⊥ ⊤ m).2
  rw [min_eq_left le_top, max_eq_right bot_le] at h1 h2
  exact le_antisymm h2 h1

/-! ### C8: cutoff behaviour -/

/-- C8: at depth 0 or on a terminal board, `minimax` returns
`(board.evaluate(), None)`; in particular a board with zero black pieces is
terminal and the best move returned for black is `none`. -/
theorem c8_cutoff (b : Board) (d : Nat) (alpha beta : Score) (m : Bool) :
    ((d = 0 ∨ is_terminal b) → minimax b d alpha beta m = (evaluate b, none)) ∧
    (b.black_left = 0 → is_terminal b ∧ (minimax b d alpha beta false).2 = none) := by
  have hcut : ∀ (m' : Bool), (d = 0 ∨ is_terminal b) →
      minimax b d alpha beta m' = (evaluate b, none) := by
    intro m' h
    cases d with
    | zero => rfl
    | succ k =>
        rcases h with h | h
        · exact absurd h (Nat.succ_ne_zero k)
        · rw [minimax, if_pos h]
  refine ⟨hcut m, fun hb => ?_⟩
  have ht : is_terminal b := Or.inr hb
  exact ⟨ht, by rw [hcut false (Or.inr ht)]⟩

/-! ### C6: no legal move for the side to move -/

theorem loopPiecesMax_noMoves (f : Score → Board → Score) (b : Board) (beta : Score) :
    ∀ (ps : List (Piece × Int × Int)) (me al : Score) (best : Option Sel),
      (∀ pc ∈ ps, get_valid_moves b pc.1 pc.2.1 pc.2.2 = []) →
      loopPiecesMax f b beta ps me al best = (me, al, best)
  | [], _, _, _, _ => rfl
  | (p, r, c) :: rest, me, al, best, h => by
      rw [loopPiecesMax]
      have h1 : get_valid_moves b p r c = [] := h (p, r, c) (List.mem_cons_self _ _)
      rw [h1]
      exact loopPiecesMax_noMoves f b beta rest me al best
        (fun pc hpc => h pc (List.mem_cons_of_mem _ hpc))

theorem loopPiecesMin_noMoves (f : Score → Board → Score) (b : Board) (alpha : Score) :
    ∀ (ps : List (Piece × Int × Int)) (me bt : Score) (best : Option Sel),
      (∀ pc ∈ ps, get_valid_moves b pc.1 pc.2.1 pc.2.2 = []) →
      loopPiecesMin f b alpha ps me bt best = (me, bt, best)
  | [], _, _, _, _ => rfl
  | (p, r, c) :: rest, me, bt, best, h => by
      rw [loopPiecesMin]
      have h1 : get_valid_moves b p r c = [] := h (p, r, c) (List.mem_cons_self _ _)
      rw [h1]
      exact loopPiecesMin_noMoves f b alpha rest me bt best
        (fun pc hpc => h pc (List.mem_cons_of_mem _ hpc))

/-- C6: on a non-terminal board at depth ≥ 1, if no piece of the side to
move has any valid destination, `minimax` at the full window returns the
initial extremal score (`-∞` when maximizing, `+∞` when minimizing) paired
with `none` — a defined outcome, not an error. -/
theorem c6_no_moves (b : Board) (d : Nat) (m : Bool)
    (hterm : ¬is_terminal b) (hd : d ≠ 0)
    (hmoves : ∀ pc ∈ get_all_pieces b (if m then Color.white else Color.black),
      get_valid_moves b pc.1 pc.2.1 pc.2.2 = []) :
    minimax b d ⊥ ⊤ m = ((if m then (⊥ : Score) else ⊤), none) := by
  obtain ⟨k, rfl⟩ := Nat.exists_eq_succ_of_ne_zero hd
  rw [minimax, if_neg hterm]
  cases m with
  | true =>
      rw [if_pos rfl]
      rw [loopPiecesMax_noMoves _ _ _ _ _ _ _ (by exact hmoves)]
      rfl
  | false =>
      rw [if_neg (by decide)]
      rw [loopPiecesMin_noMoves _ _ _ _ _ _ _ (by exact hmoves)]
      rfl

/-! ### C9: a returned best move is legal on the input board -/

theorem mem_get_all_pieces {b : Board} {col : Color} {p : Piece} {r c : Int}
    (h : (p, r, c) ∈ get_all_pieces b col) :
    getCell b.board r c = some p ∧ p.color = col := by
  unfold get_all_pieces at h
  rw [List.mem_flatMap] at h
  obtain ⟨rn, _, h⟩ := h
  rw [List.mem_filterMap] at h
  obtain ⟨cn, _, h⟩ := h
  cases hc : getCell b.board (rn : Int) (cn : Int) with
  | none => rw [hc] at h; exact Option.noConfusion h
  | some q =>
      rw [hc] at h
      dsimp only at h
      by_cases hq : q.color = col
      · rw [if_pos hq] at h
        have h' := Option.some.inj h
        obtain ⟨h1, h2, h3⟩ : q = p ∧ (rn : Int) = r ∧ (cn : Int) = c := by
          have e1 := congrArg Prod.fst h'
          have e2 := congrArg (fun x : Piece × Int × Int => x.2.1) h'
          have e3 := congrArg (fun x : Piece × Int × Int => x.2.2) h'
          exact ⟨e1, e2, e3⟩
        rw [← h1, ← h2, ← h3]
        exact ⟨hc, hq⟩
      · rw [if_neg hq] at h
        exact Option.noConfusion h

/-- A candidate best move that is legal on `b` for the given side. -/
def legalSel (b : Board) (side : Color) (s : Option Sel) : Prop :=
  ∀ (p : Piece) (st en : Pos), s = some (p, st, en) →
    getCell b.board st.1 st.2 = some p ∧ p.color = side ∧
      ∃ caps, (en, caps) ∈ get_valid_moves b p st.1 st.2

theorem loopMovesMax_legal (f : Score → Board → Score) (b : Board) (p : Piece)
    (rc : Pos) (be : Score) (side : Color)
    (hp : getCell b.board rc.1 rc.2 = some p) (hc : p.color = side) :
    ∀ (ms : List MoveEntry) (me al : Score) (best : Option Sel),
      (∀ mv ∈ ms, mv ∈ get_valid_moves b p rc.1 rc.2) → legalSel b side best →
      legalSel b side (loopMovesMax f b p rc be ms me al best).2.2
  | [], _, _, best, _, hbest => hbest
  | mv :: rest, me, al, best, hms, hbest => by
      rw [loopMovesMax]
      have hbest' : legalSel b side
          (if me < f al (child b p rc mv) then some (p, rc, mv.1) else best) := by
        by_cases hlt : me < f al (child b p rc mv)
        · rw [if_pos hlt]
          intro p' st en hEq
          have h' := Option.some.inj hEq
          have e1 : p = p' := congrArg Prod.fst h'
          have e2 : rc = st := congrArg (fun x : Sel => x.2.1) h'
          have e3 : mv.1 = en := congrArg (fun x : Sel => x.2.2) h'
          rw [← e1, ← e2, ← e3]
          exact ⟨hp, hc, mv.2, by rw [Prod.mk.eta]; exact hms mv (List.mem_cons_self _ _)⟩
        · rw [if_neg hlt]
          exact hbest
      by_cases hbr : be ≤ max al (f al (child b p rc mv))
      · rw [if_pos hbr]
        exact hbest'
      · rw [if_neg hbr]
        exact loopMovesMax_legal f b p rc be side hp hc rest _ _ _
          (fun x hx => hms x (List.mem_cons_of_mem _ hx)) hbest'

theorem loopMovesMin_legal (f : Score → Board → Score) (b : Board) (p : Piece)
    (rc : Pos) (al : Score) (side : Color)
    (hp : getCell b.board rc.1 rc.2 = some p) (hc : p.color = side) :
    ∀ (ms : List MoveEntry) (me bt : Score) (best : Option Sel),
      (∀ mv ∈ ms, mv ∈ get_valid_moves b p rc.1 rc.2) → legalSel b side best →
      legalSel b side (loopMovesMin f b p rc al ms me bt best).2.2
  | [], _, _, best, _, hbest => hbest
  | mv :: rest, me, bt, best, hms, hbest => by
      rw [loopMovesMin]
      have hbest' : legalSel b side
          (if f bt (child b p rc mv) < me then some (p, rc, mv.1) else best) := by
        by_cases hlt : f bt (child b p rc mv) < me
        · rw [if_pos hlt]
          intro p' st en hEq
          have h' := Option.some.inj hEq
          have e1 : p = p' := congrArg Prod.fst h'
          have e2 : rc = st := congrArg (fun x : Sel => x.2.1) h'
          have e3 : mv.1 = en := congrArg (fun x : Sel => x.2.2) h'
          rw [← e1, ← e2, ← e3]
          exact ⟨hp, hc, mv.2, by rw [Prod.mk.eta]; exact hms mv (List.mem_cons_self _ _)⟩
        · rw [if_neg hlt]
          exact hbest
      by_cases hbr : min bt (f bt (child b p rc mv)) ≤ al
      · rw [if_pos hbr]
        exact hbest'
      · rw [if_neg hbr]
        exact loopMovesMin_legal f b p rc al side hp hc rest _ _ _
          (fun x hx => hms x (List.mem_cons_of_mem _ hx)) hbest'

theorem loopPiecesMax_legal (f : Score → Board → Score) (b : Board) (be : Score)
    (side : Color) :
    ∀ (ps : List (Piece × Int × Int)) (me al : Score) (best : Option Sel),
      (∀ pc ∈ ps, getCell b.board pc.2.1 pc.2.2 = some pc.1 ∧ pc.1.color = side) →
      legalSel b side best →
      legalSel b side (loopPiecesMax f b be ps me al best).2.2
  | [], _, _, best, _, hbest => hbest
  | (p, r, c) :: rest, me, al, best, hps, hbest => by
      rw [loopPiecesMax]
      have hhead := hps (p, r, c) (List.mem_cons_self _ _)
      exact loopPiecesMax_legal f b be side rest _ _ _
        (fun pc hpc => hps pc (List.mem_cons_of_mem _ hpc))
        (loopMovesMax_legal f b p (r, c) be side hhead.1 hhead.2
          (get_valid_moves b p r c) me al best (fun _ hx => hx) hbest)

theorem loopPiecesMin_legal (f : Score → Board → Score) (b : Board) (al : Score)
    (side : Color) :
    ∀ (ps : List (Piece × Int × Int)) (me bt : Score) (best : Option Sel),
      (∀ pc ∈ ps, getCell b.board pc.2.1 pc.2.2 = some pc.1 ∧ pc.1.color = side) →
      legalSel b side best →
      legalSel b side (loopPiecesMin f b al ps me bt best).2.2
  | [], _, _, best, _, hbest => hbest
  | (p, r, c) :: rest, me, bt, best, hps, hbest => by
      rw [loopPiecesMin]
      have hhead := hps (p, r, c) (List.mem_cons_self _ _)
      exact loopPiecesMin_legal f b al side rest _ _ _
        (fun pc hpc => hps pc (List.mem_cons_of_mem _ hpc))
        (loopMovesMin_legal f b p (r, c) al side hhead.1 hhead.2
          (get_valid_moves b p r c) me bt best (fun _ hx => hx) hbest)

/-- C9: whenever `minimax` returns a move `(piece, start, end)`, that move is
legal on the input board: `start` holds exactly that piece, its color is the
side to move (white when maximizing), and `end` is one of its valid
destinations — so the caller can replay it and look up its capture list. -/
theorem c9_best_move_legal (b : Board) (d : Nat) (alpha beta : Score) (m : Bool)
    (sc : Score) (p : Piece) (st en : Pos)
    (h : minimax b d alpha beta m = (sc, some (p, st, en))) :
    getCell b.board st.1 st.2 = some p ∧
    p.color = (if m then Color.white else Color.black) ∧
    ∃ caps, (en, caps) ∈ get_valid_moves b p st.1 st.2 := by
  cases d with
  | zero =>
      exact absurd (congrArg Prod.snd h) (by simp [minimax])
  | succ k =>
      rw [minimax] at h
      by_cases ht : is_terminal b
      · rw [if_pos ht] at h
        exact absurd (congrArg Prod.snd h) (by simp)
      · rw [if_neg ht] at h
        cases m with
        | true =>
            rw [if_pos rfl] at h
            have hlegal := loopPiecesMax_legal
              (fun a nb => (minimax nb k a beta false).1) b beta Color.white
              (get_all_pieces b Color.white) ⊥ alpha none
              (fun pc hpc => by
                obtain ⟨p', r', c'⟩ := pc
                exact mem_get_all_pieces hpc)
              (fun _ _ _ hEq => Option.noConfusion hEq)
            have h2 := congrArg Prod.snd h
            exact hlegal p st en h2
        | false =>
            rw [if_neg (by decide)] at h
            have hlegal := loopPiecesMin_legal
              (fun bt nb => (minimax nb k alpha bt true).1) b alpha Color.black
              (get_all_pieces b Color.black) ⊤ beta none
              (fun pc hpc => by
                obtain ⟨p', r', c'⟩ := pc
                exact mem_get_all_pieces hpc)
              (fun _ _ _ hEq => Option.noConfusion hEq)
            have h2 := congrArg Prod.snd h
            exact hlegal p st en h2

/-! ### C5: heap model — `minimax` leaves the input board unchanged

In Python, `Piece` objects have identity: the `minimax` loops hand the
*original* piece object to `move_piece` on a clone, so a `make_king` there
writes through to an object the input board still holds.  `minimax` never
assigns to the input board's own fields (its grid and counters are only
read), so piece objects are the one mutable channel back to the caller.  To
verify the frame claim we embed this sharing: pieces live in a heap
addressed by `PieceId`, grid cells hold ids, `clone` allocates fresh copies
of every piece (as `copy.deepcopy` does) while `move_piece` places the
*original* id on the clone, and `make_king` is a heap write.  The theorem
shows the value at every pre-existing heap address is untouched by the whole
search: the promotion write only ever fires on a piece that is already a
king (a legal destination row rules out promotion for non-kings), so it
rewrites the same value. -/

abbrev PieceId := Nat

abbrev Heap := List Piece

/-- Dereference a piece id. -/
def heapGet (h : Heap) (i : PieceId) : Option Piece := h[i]?

/-- A board whose cells hold references into the heap. -/
structure BoardH where
  board : List (Option PieceId)
  white_left : Int
  black_left : Int
  white_kings : Int
  black_kings : Int

def getCellH (g : List (Option PieceId)) (r c : Int) : Option PieceId :=
  if inb r c then g.getD (idx r c) none else none

def setCellH (g : List (Option PieceId)) (r c : Int) (v : Option PieceId) :
    List (Option PieceId) :=
  if inb r c then g.set (idx r c) v else g

/-- `Board.get_all_pieces` in the heap model. -/
def get_all_piecesH (h : Heap) (b : BoardH) (color : Color) :
    List (PieceId × Int × Int) :=
  (List.range 8).flatMap fun r =>
    (List.range 8).filterMap fun c =>
      match getCellH b.board (r : Int) (c : Int) with
      | some i =>
          match heapGet h i with
          | some p => if p.color = color then some (i, (r : Int), (c : Int)) else none
          | none => none
      | none => none

/-- `Board._traverse` in the heap model. -/
def _traverseH (h : Heap) (b : BoardH) (sr sc ri ci : Int) (color : Color)
    (skipped : List Pos) (_depth : Nat) : List MoveEntry :=
  let r := sr + ri
  let c := sc + ci
  if inb r c then
    match getCellH b.board r c with
    | none => [((r, c), skipped)]
    | some i =>
        match heapGet h i with
        | none => []
        | some np =>
            if np.color ≠ color then
              let nr := r + ri
              let nc := c + ci
              if inb nr nc ∧ getCellH b.board nr nc = none then
                [((nr, nc), skipped ++ [(r, c)])]
              else []
            else []
  else []

/-- `Board.get_valid_moves` in the heap model. -/
def get_valid_movesH (h : Heap) (b : BoardH) (i : PieceId) (row col : Int) :
    List MoveEntry :=
  match heapGet h i with
  | none => []
  | some piece =>
      (if piece.color = Color.white ∨ piece.king then
        _traverseH h b row col (-1) (-1) piece.color [] 1 ++
        _traverseH h b row col (-1) 1 piece.color [] 1
      else []) ++
      (if piece.color = Color.black ∨ piece.king then
        _traverseH h b row col 1 (-1) piece.color [] 1 ++
        _traverseH h b row col 1 1 piece.color [] 1
      else [])

/-- `Board.move_piece` in the heap model: the grid gets the *original* id at
`end`; a promotion mutates the heap cell of that id (`piece.make_king()`). -/
def move_pieceH (h : Heap) (b : BoardH) (i : PieceId) (s e : Pos) : Heap × BoardH :=
  let g1 := setCellH b.board s.1 s.2 none
  let g2 := setCellH g1 e.1 e.2 (some i)
  match heapGet h i with
  | none => (h, { b with board := g2 })
  | some piece =>
      if e.1 = ROWS - 1 ∧ piece.color = Color.white then
        (h.set i { piece with king := true },
          { b with board := g2, white_kings := b.white_kings + 1 })
      else if e.1 = 0 ∧ piece.color = Color.black then
        (h.set i { piece with king := true },
          { b with board := g2, black_kings := b.black_kings + 1 })
      else (h, { b with board := g2 })

/-- One step of `Board.remove_piece` in the heap model (reads the heap, never
writes it). -/
def removeOneH (h : Heap) (b : BoardH) (pos : Pos) : BoardH :=
  match getCellH b.board pos.1 pos.2 with
  | none => b
  | some i =>
      match heapGet h i with
      | none => b
      | some q =>
          if q.color = Color.white then
            { b with board := setCellH b.board pos.1 pos.2 none
                     white_left := b.white_left - 1
                     white_kings := if q.king then b.white_kings - 1 else b.white_kings }
          else
            { b with board := setCellH b.board pos.1 pos.2 none
                     black_left := b.black_left - 1
                     black_kings := if q.king then b.black_kings - 1 else b.black_kings }

def remove_pieceH (h : Heap) (b : BoardH) (pieces : List Pos) : BoardH :=
  pieces.foldl (removeOneH h) b

/-- One grid cell of `copy.deepcopy`: an occupied cell allocates a fresh copy
of the referenced piece at the end of the heap. -/
def cloneCell (acc : Heap × List (Option PieceId)) (cell : Option PieceId) :
    Heap × List (Option PieceId) :=
  match cell with
  | none => (acc.1, acc.2 ++ [none])
  | some i =>
      (acc.1 ++ [(heapGet acc.1 i).getD ⟨Color.white, false⟩],
        acc.2 ++ [some acc.1.length])

/-- `Board.clone` (`copy.deepcopy`): fresh ids for every piece on the board. -/
def cloneH (h : Heap) (b : BoardH) : Heap × BoardH :=
  let hg := b.board.foldl cloneCell (h, [])
  (hg.1, { b with board := hg.2 })

def evaluateH (b : BoardH) : Score :=
  fin ((b.white_left - b.black_left : ℚ) + (b.white_kings - b.black_kings : ℚ) * (1 / 2))

def is_terminalH (b : BoardH) : Prop :=
  b.white_left = 0 ∨ b.black_left = 0

instance (b : BoardH) : Decidable (is_terminalH b) := by
  unfold is_terminalH; infer_instance

abbrev SelH := PieceId × Pos × Pos

/-- The clone explored for one candidate move, with the heap threaded. -/
def childH (h : Heap) (b : BoardH) (i : PieceId) (rc : Pos) (mv : MoveEntry) :
    Heap × BoardH :=
  let hb := cloneH h b
  let hb2 := move_pieceH hb.1 hb.2 i rc mv.1
  (hb2.1, remove_pieceH hb2.1 hb2.2 mv.2)

def loopMovesMaxH (f : Heap → Score → BoardH → Heap × Score) (b : BoardH)
    (i : PieceId) (rc : Pos) (beta : Score) :
    List MoveEntry → Heap → Score → Score → Option SelH →
      Heap × Score × Score × Option SelH
  | [], h, me, al, best => (h, me, al, best)
  | mv :: rest, h, me, al, best =>
      let hb := childH h b i rc mv
      let he := f hb.1 al hb.2
      let best' := if me < he.2 then some (i, rc, mv.1) else best
      let me' := max me he.2
      let al' := max al he.2
      if beta ≤ al' then (he.1, me', al', best')
      else loopMovesMaxH f b i rc beta rest he.1 me' al' best'

def loopPiecesMaxH (f : Heap → Score → BoardH → Heap × Score) (b : BoardH)
    (beta : Score) :
    List (PieceId × Int × Int) → Heap → Score → Score → Option SelH →
      Heap × Score × Score × Option SelH
  | [], h, me, al, best => (h, me, al, best)
  | (i, r, c) :: rest, h, me, al, best =>
      let s := loopMovesMaxH f b i (r, c) beta (get_valid_movesH h b i r c) h me al best
      loopPiecesMaxH f b beta rest s.1 s.2.1 s.2.2.1 s.2.2.2

def loopMovesMinH (f : Heap → Score → BoardH → Heap × Score) (b : BoardH)
    (i : PieceId) (rc : Pos) (alpha : Score) :
    List MoveEntry → Heap → Score → Score → Option SelH →
      Heap × Score × Score × Option SelH
  | [], h, me, bt, best => (h, me, bt, best)
  | mv :: rest, h, me, bt, best =>
      let hb := childH h b i rc mv
      let he := f hb.1 bt hb.2
      let best' := if he.2 < me then some (i, rc, mv.1) else best
      let me' := min me he.2
      let bt' := min bt he.2
      if bt' ≤ alpha then (he.1, me', bt', best')
      else loopMovesMinH f b i rc alpha rest he.1 me' bt' best'

def loopPiecesMinH (f : Heap → Score → BoardH → Heap × Score) (b : BoardH)
    (alpha : Score) :
    List (PieceId × Int × Int) → Heap → Score → Score → Option SelH →
      Heap × Score × Score × Option SelH
  | [], h, me, bt, best => (h, me, bt, best)
  | (i, r, c) :: rest, h, me, bt, best =>
      let s := loopMovesMinH f b i (r, c) alpha (get_valid_movesH h b i r c) h me bt best
      loopPiecesMinH f b alpha rest s.1 s.2.1 s.2.2.1 s.2.2.2

/-- `minimax` in the heap model, returning the final heap alongside the
score and best move. -/
def minimaxH : Heap → BoardH → Nat → Score → Score → Bool → Heap × Score × Option SelH
  | h, b, 0, _, _, _ => (h, evaluateH b, none)
  | h, b, d + 1, alpha, beta, maximizing_player =>
      if is_terminalH b then (h, evaluateH b, none)
      else if maximizing_player then
        let s := loopPiecesMaxH
          (fun hh a nb => ((minimaxH hh nb d a beta false).1, (minimaxH hh nb d a beta false).2.1))
          b beta (get_all_piecesH h b Color.white) h ⊥ alpha none
        (s.1, s.2.1, s.2.2.2)
      else
        let s := loopPiecesMinH
          (fun hh bt nb => ((minimaxH hh nb d alpha bt true).1, (minimaxH hh nb d alpha bt true).2.1))
          b alpha (get_all_piecesH h b Color.black) h ⊤ beta none
        (s.1, s.2.1, s.2.2.2)

/-- `h'` extends `h`: same values at every pre-existing address. -/
def heapExt (h h' : Heap) : Prop :=
  h.length ≤ h'.length ∧ ∀ i : Nat, i < h.length → h'[i]? = h[i]?

theorem heapExt_refl (h : Heap) : heapExt h h :=
  ⟨le_refl _, fun _ _ => rfl⟩

theorem heapExt_trans {h1 h2 h3 : Heap} (a : heapExt h1 h2) (b : heapExt h2 h3) :
    heapExt h1 h3 :=
  ⟨le_trans a.1 b.1, fun i hi => by rw [b.2 i (lt_of_lt_of_le hi a.1), a.2 i hi]⟩

theorem heapExt_append (h l : Heap) : heapExt h (h ++ l) := by
  constructor
  · rw [List.length_append]
    omega
  · intro i hi
    exact List.getElem?_append_left hi

theorem heapGet_lt {h : Heap} {i : PieceId} {p : Piece} (hp : heapGet h i = some p) :
    i < h.length := by
  unfold heapGet at hp
  obtain ⟨hlt, _⟩ := List.getElem?_eq_some.1 hp
  exact hlt

theorem heapGet_ext {h h' : Heap} {i : PieceId} {p : Piece} (he : heapExt h h')
    (hp : heapGet h i = some p) : heapGet h' i = some p := by
  unfold heapGet at hp ⊢
  rw [he.2 i (heapGet_lt hp)]
  exact hp

theorem set_getElem_self : ∀ (l : Heap) (i : Nat) (v : Piece),
    l[i]? = some v → l.set i v = l
  | [], i, v, h => by simp at h
  | a :: t, 0, v, h => by
      simp only [List.getElem?_cons_zero] at h
      simp [List.set, Option.some.inj h]
  | a :: t, i + 1, v, h => by
      simp only [List.getElem?_cons_succ] at h
      simp [List.set, set_getElem_self t i v h]

theorem cloneCell_ext (acc : Heap × List (Option PieceId)) (cell : Option PieceId) :
    heapExt acc.1 (cloneCell acc cell).1 := by
  cases cell with
  | none => exact heapExt_refl _
  | some i => exact heapExt_append _ _

theorem foldl_cloneCell_ext :
    ∀ (cells : List (Option PieceId)) (acc : Heap × List (Option PieceId)),
      heapExt acc.1 (cells.foldl cloneCell acc).1
  | [], acc => heapExt_refl _
  | cell :: rest, acc =>
      heapExt_trans (cloneCell_ext acc cell) (foldl_cloneCell_ext rest _)

theorem cloneH_ext (h : Heap) (b : BoardH) : heapExt h (cloneH h b).1 :=
  foldl_cloneCell_ext b.board (h, [])

/-- The promotion write of a legal move is the identity on the heap: the
branch only fires when the moved piece is already a king. -/
theorem move_pieceH_frame (h : Heap) (b : BoardH) (i : PieceId) (s e : Pos)
    (p : Piece) (hp : heapGet h i = some p)
    (hw : e.1 = ROWS - 1 → p.color = Color.white → p.king = true)
    (hbk : e.1 = 0 → p.color = Color.black → p.king = true) :
    (move_pieceH h b i s e).1 = h := by
  have hset : p.king = true → h.set i { p with king := true } = h := by
    intro hk
    have : ({ p with king := true } : Piece) = p := by
      cases p
      simp only at hk
      rw [hk]
    rw [this]
    exact set_getElem_self h i p hp
  unfold move_pieceH
  rw [hp]
  dsimp only
  by_cases h1 : e.1 = ROWS - 1 ∧ p.color = Color.white
  · rw [if_pos h1]
    exact hset (hw h1.1 h1.2)
  · rw [if_neg h1]
    by_cases h2 : e.1 = 0 ∧ p.color = Color.black
    · rw [if_pos h2]
      exact hset (hbk h2.1 h2.2)
    · rw [if_neg h2]

theorem traverseH_dest_row {h : Heap} {b : BoardH} {sr sc ri ci : Int}
    {color : Color} {sk : List Pos} {dep : Nat} {dst : Pos} {caps : List Pos}
    (hm : (dst, caps) ∈ _traverseH h b sr sc ri ci color sk dep) :
    dst.1 = sr + ri ∨ dst.1 = sr + ri + ri := by
  unfold _traverseH at hm
  by_cases h1 : inb (sr + ri) (sc + ci)
  · rw [if_pos h1] at hm
    cases hc : getCellH b.board (sr + ri) (sc + ci) with
    | none =>
        rw [hc] at hm
        dsimp only at hm
        simp only [List.mem_singleton, Prod.mk.injEq] at hm
        exact Or.inl (by rw [hm.1])
    | some i =>
        rw [hc] at hm
        dsimp only at hm
        cases hq : heapGet h i with
        | none => rw [hq] at hm; exact absurd hm (List.not_mem_nil _)
        | some np =>
            rw [hq] at hm
            dsimp only at hm
            by_cases h2 : np.color ≠ color
            · rw [if_pos h2] at hm
              by_cases h3 : inb (sr + ri + ri) (sc + ci + ci) ∧
                  getCellH b.board (sr + ri + ri) (sc + ci + ci) = none
              · rw [if_pos h3] at hm
                simp only [List.mem_singleton, Prod.mk.injEq] at hm
                exact Or.inr (by rw [hm.1])
              · rw [if_neg h3] at hm
                exact absurd hm (List.not_mem_nil _)
            · rw [if_neg h2] at hm
              exact absurd hm (List.not_mem_nil _)
  · rw [if_neg h1] at hm
    exact absurd hm (List.not_mem_nil _)

/-- No valid destination of a piece at a row inside the grid triggers a
promotion of a non-king: white non-kings only move up, black only down. -/
theorem gvmH_no_promotion {h : Heap} {b : BoardH} {i : PieceId} {row col : Int}
    {p : Piece} (hp : heapGet h i = some p) (hr0 : 0 ≤ row) (hr8 : row < 8)
    {dst : Pos} {caps : List Pos}
    (hm : (dst, caps) ∈ get_valid_movesH h b i row col) :
    (dst.1 = ROWS - 1 → p.color = Color.white → p.king = true) ∧
    (dst.1 = 0 → p.color = Color.black → p.king = true) := by
  cases hk : p.king with
  | true => exact ⟨fun _ _ => rfl, fun _ _ => rfl⟩
  | false =>
      unfold get_valid_movesH at hm
      rw [hp] at hm
      dsimp only at hm
      cases hcol : p.color with
      | white =>
          rw [if_pos (Or.inl hcol), if_neg (by rw [hcol, hk]; decide)] at hm
          rw [List.append_nil] at hm
          have hdr : dst.1 = row + (-1) ∨ dst.1 = row + (-1) + (-1) := by
            rcases List.mem_append.1 hm with h' | h' <;> exact traverseH_dest_row h'
          constructor
          · intro h7 _
            exfalso
            unfold ROWS at h7
            omega
          · intro _ hcb
            exact Color.noConfusion hcb
      | black =>
          rw [if_neg (by rw [hcol, hk]; decide), if_pos (Or.inl hcol)] at hm
          rw [List.nil_append] at hm
          have hdr : dst.1 = row + 1 ∨ dst.1 = row + 1 + 1 := by
            rcases List.mem_append.1 hm with h' | h' <;> exact traverseH_dest_row h'
          constructor
          · intro _ hcw
            exact Color.noConfusion hcw
          · intro h0 _
            exfalso
            omega

theorem mem_get_all_piecesH {h : Heap} {b : BoardH} {col : Color} {i : PieceId}
    {r c : Int} (hm : (i, r, c) ∈ get_all_piecesH h b col) :
    ∃ p : Piece, heapGet h i = some p ∧ p.color = col ∧ 0 ≤ r ∧ r < 8 := by
  unfold get_all_piecesH at hm
  rw [List.mem_flatMap] at hm
  obtain ⟨rn, hrn, hm⟩ := hm
  rw [List.mem_filterMap] at hm
  obtain ⟨cn, _, hm⟩ := hm
  rw [List.mem_range] at hrn
  cases hc : getCellH b.board (rn : Int) (cn : Int) with
  | none => rw [hc] at hm; exact Option.noConfusion hm
  | some j =>
      rw [hc] at hm
      dsimp only at hm
      cases hq : heapGet h j with
      | none => rw [hq] at hm; exact Option.noConfusion hm
      | some p =>
          rw [hq] at hm
          dsimp only at hm
          by_cases hcolj : p.color = col
          · rw [if_pos hcolj] at hm
            have h' := Option.some.inj hm
            have e1 : j = i := congrArg Prod.fst h'
            have e2 : (rn : Int) = r := congrArg (fun x : PieceId × Int × Int => x.2.1) h'
            refine ⟨p, ?_, hcolj, ?_, ?_⟩
            · rw [← e1]; exact hq
            · rw [← e2]; exact Int.natCast_nonneg rn
            · rw [← e2]; exact_mod_cast hrn
          · rw [if_neg hcolj] at hm
            exact Option.noConfusion hm

/-- The inner maximizing loop only extends the heap. -/
theorem loopMovesMaxH_frame (f : Heap → Score → BoardH → Heap × Score)
    (b : BoardH) (i : PieceId) (rc : Pos) (be : Score) (p : Piece)
    (hf : ∀ (hh : Heap) (a : Score) (nb : BoardH), heapExt hh (f hh a nb).1) :
    ∀ (ms : List MoveEntry) (h : Heap) (me al : Score) (best : Option SelH),
      heapGet h i = some p →
      (∀ mv ∈ ms, (mv.1.1 = ROWS - 1 → p.color = Color.white → p.king = true) ∧
        (mv.1.1 = 0 → p.color = Color.black → p.king = true)) →
      heapExt h (loopMovesMaxH f b i rc be ms h me al best).1
  | [], h, me, al, best, _, _ => heapExt_refl h
  | mv :: rest, h, me, al, best, hp, hms => by
      rw [loopMovesMaxH]
      have hclone : heapExt h (cloneH h b).1 := cloneH_ext h b
      have hp1 : heapGet (cloneH h b).1 i = some p := heapGet_ext hclone hp
      have hmv := hms mv (List.mem_cons_self _ _)
      have hmove : (move_pieceH (cloneH h b).1 (cloneH h b).2 i rc mv.1).1 =
          (cloneH h b).1 :=
        move_pieceH_frame _ _ i rc mv.1 p hp1 hmv.1 hmv.2
      have hchild : (childH h b i rc mv).1 = (cloneH h b).1 := by
        unfold childH
        exact hmove
      have hext1 : heapExt h (childH h b i rc mv).1 := by
        rw [hchild]
        exact hclone
      have hext2 : heapExt h (f (childH h b i rc mv).1 al (childH h b i rc mv).2).1 :=
        heapExt_trans hext1 (hf _ _ _)
      by_cases hbr : be ≤ max al (f (childH h b i rc mv).1 al (childH h b i rc mv).2).2
      · rw [if_pos hbr]
        exact hext2
      · rw [if_neg hbr]
        exact heapExt_trans hext2
          (loopMovesMaxH_frame f b i rc be p hf rest _ _ _ _
            (heapGet_ext hext2 hp)
            (fun x hx => hms x (List.mem_cons_of_mem _ hx)))

/-- The inner minimizing loop only extends the heap. -/
theorem loopMovesMinH_frame (f : Heap → Score → BoardH → Heap × Score)
    (b : BoardH) (i : PieceId) (rc : Pos) (al : Score) (p : Piece)
    (hf : ∀ (hh : Heap) (a : Score) (nb : BoardH), heapExt hh (f hh a nb).1) :
    ∀ (ms : List MoveEntry) (h : Heap) (me bt : Score) (best : Option SelH),
      heapGet h i = some p →
      (∀ mv ∈ ms, (mv.1.1 = ROWS - 1 → p.color = Color.white → p.king = true) ∧
        (mv.1.1 = 0 → p.color = Color.black → p.king = true)) →
      heapExt h (loopMovesMinH f b i rc al ms h me bt best).1
  | [], h, me, bt, best, _, _ => heapExt_refl h
  | mv :: rest, h, me, bt, best, hp, hms => by
      rw [loopMovesMinH]
      have hclone : heapExt h (cloneH h b).1 := cloneH_ext h b
      have hp1 : heapGet (cloneH h b).1 i = some p := heapGet_ext hclone hp
      have hmv := hms mv (List.mem_cons_self _ _)
      have hmove : (move_pieceH (cloneH h b).1 (cloneH h b).2 i rc mv.1).1 =
          (cloneH h b).1 :=
        move_pieceH_frame _ _ i rc mv.1 p hp1 hmv.1 hmv.2
      have hchild : (childH h b i rc mv).1 = (cloneH h b).1 := by
        unfold childH
        exact hmove
      have hext1 : heapExt h (childH h b i rc mv).1 := by
        rw [hchild]
        exact hclone
      have hext2 : heapExt h (f (childH h b i rc mv).1 bt (childH h b i rc mv).2).1 :=
        heapExt_trans hext1 (hf _ _ _)
      by_cases hbr : min bt (f (childH h b i rc mv).1 bt (childH h b i rc mv).2).2 ≤ al
      · rw [if_pos hbr]
        exact hext2
      · rw [if_neg hbr]
        exact heapExt_trans hext2
          (loopMovesMinH_frame f b i rc al p hf rest _ _ _ _
            (heapGet_ext hext2 hp)
            (fun x hx => hms x (List.mem_cons_of_mem _ hx)))

/-- The outer maximizing loop only extends the heap. -/
theorem loopPiecesMaxH_frame (f : Heap → Score → BoardH → Heap × Score)
    (b : BoardH) (be : Score) (h0 : Heap)
    (hf : ∀ (hh : Heap) (a : Score) (nb : BoardH), heapExt hh (f hh a nb).1) :
    ∀ (ps : List (PieceId × Int × Int)) (h : Heap) (me al : Score) (best : Option SelH),
      heapExt h0 h →
      (∀ pc ∈ ps, ∃ p : Piece, heapGet h0 pc.1 = some p ∧ 0 ≤ pc.2.1 ∧ pc.2.1 < 8) →
      heapExt h (loopPiecesMaxH f b be ps h me al best).1
  | [], h, me, al, best, _, _ => heapExt_refl h
  | (i, r, c) :: rest, h, me, al, best, hh, hps => by
      rw [loopPiecesMaxH]
      obtain ⟨p, hp0, hr0, hr8⟩ := hps (i, r, c) (List.mem_cons_self _ _)
      have hp : heapGet h i = some p := heapGet_ext hh hp0
      have hinner : heapExt h
          (loopMovesMaxH f b i (r, c) be (get_valid_movesH h b i r c) h me al best).1 :=
        loopMovesMaxH_frame f b i (r, c) be p hf (get_valid_movesH h b i r c)
          h me al best hp
          (fun mv hmv => gvmH_no_promotion hp hr0 hr8
            (show (mv.1, mv.2) ∈ get_valid_movesH h b i r c by
              rw [Prod.mk.eta]; exact hmv))
      exact heapExt_trans hinner
        (loopPiecesMaxH_frame f b be h0 hf rest _ _ _ _
          (heapExt_trans hh hinner)
          (fun pc hpc => hps pc (List.mem_cons_of_mem _ hpc)))

/-- The outer minimizing loop only extends the heap. -/
theorem loopPiecesMinH_frame (f : Heap → Score → BoardH → Heap × Score)
    (b : BoardH) (al : Score) (h0 : Heap)
    (hf : ∀ (hh : Heap) (a : Score) (nb : BoardH), heapExt hh (f hh a nb).1) :
    ∀ (ps : List (PieceId × Int × Int)) (h : Heap) (me bt : Score) (best : Option SelH),
      heapExt h0 h →
      (∀ pc ∈ ps, ∃ p : Piece, heapGet h0 pc.1 = some p ∧ 0 ≤ pc.2.1 ∧ pc.2.1 < 8) →
      heapExt h (loopPiecesMinH f b al ps h me bt best).1
  | [], h, me, bt, best, _, _ => heapExt_refl h
  | (i, r, c) :: rest, h, me, bt, best, hh, hps => by
      rw [loopPiecesMinH]
      obtain ⟨p, hp0, hr0, hr8⟩ := hps (i, r, c) (List.mem_cons_self _ _)
      have hp : heapGet h i = some p := heapGet_ext hh hp0
      have hinner : heapExt h
          (loopMovesMinH f b i (r, c) al (get_valid_movesH h b i r c) h me bt best).1 :=
        loopMovesMinH_frame f b i (r, c) al p hf (get_valid_movesH h b i r c)
          h me bt best hp
          (fun mv hmv => gvmH_no_promotion hp hr0 hr8
            (show (mv.1, mv.2) ∈ get_valid_movesH h b i r c by
              rw [Prod.mk.eta]; exact hmv))
      exact heapExt_trans hinner
        (loopPiecesMinH_frame f b al h0 hf rest _ _ _ _
          (heapExt_trans hh hinner)
          (fun pc hpc => hps pc (List.mem_cons_of_mem _ hpc)))

/-- The whole search only extends the heap: every pre-existing address keeps
its value. -/
theorem minimaxH_ext : ∀ (d : Nat) (h : Heap) (b : BoardH) (al be : Score) (m : Bool),
    heapExt h (minimaxH h b d al be m).1
  | 0, h, _, _, _, _ => heapExt_refl h
  | d + 1, h, b, al, be, m => by
      rw [minimaxH]
      by_cases ht : is_terminalH b
      · rw [if_pos ht]
        exact heapExt_refl h
      · rw [if_neg ht]
        cases m with
        | true =>
            rw [if_pos rfl]
            exact loopPiecesMaxH_frame _ b be h
              (fun hh a nb => minimaxH_ext d hh nb a be false)
              (get_all_piecesH h b Color.white) h ⊥ al none (heapExt_refl h)
              (fun pc hpc => by
                obtain ⟨i, r, c⟩ := pc
                obtain ⟨p, hp, _, hr0, hr8⟩ := mem_get_all_piecesH hpc
                exact ⟨p, hp, hr0, hr8⟩)
        | false =>
            rw [if_neg (by decide)]
            exact loopPiecesMinH_frame _ b al h
              (fun hh bt nb => minimaxH_ext d hh nb al bt true)
              (get_all_piecesH h b Color.black) h ⊤ be none (heapExt_refl h)
              (fun pc hpc => by
                obtain ⟨i, r, c⟩ := pc
                obtain ⟨p, hp, _, hr0, hr8⟩ := mem_get_all_piecesH hpc
                exact ⟨p, hp, hr0, hr8⟩)

/-- C5: `minimax` leaves the input board completely unchanged.  The search
never writes the input board's grid or counters (all mutation targets clones,
as `minimaxH` reflects: the input `BoardH` value is only read), and the one
aliased channel — piece objects shared between the input board and its
clones — is untouched: every pre-existing heap address holds the same piece
after the call, so in particular every piece the input board's cells
reference, king flag included, is exactly as before. -/
theorem c5_minimax_frame (h : Heap) (b : BoardH) (d : Nat) (al be : Score) (m : Bool) :
    (∀ i : Nat, i < h.length → (minimaxH h b d al be m).1[i]? = h[i]?) ∧
    (∀ (r c : Int) (j : PieceId) (p : Piece),
      getCellH b.board r c = some j → heapGet h j = some p →
      heapGet (minimaxH h b d al be m).1 j = some p) := by
  have hext := minimaxH_ext d h b al be m
  exact ⟨hext.2, fun r c j p _ hp => heapGet_ext hext hp⟩

/-! ### Concrete instantiations (witnesses) -/

/-- The spec's capture scenario: a white man at `(3, 4)`, a black man at
`(2, 3)`, the landing cell `(1, 2)` empty. -/
def capBoard : Board :=
  { board := setCell (setCell emptyGrid 3 4 (some ⟨Color.white, false⟩))
      2 3 (some ⟨Color.black, false⟩)
    white_left := 1
    black_left := 1
    white_kings := 0
    black_kings := 0 }

/-- `capBoard` with the landing cell `(1, 2)` blocked by a white man. -/
def capBoard2 : Board :=
  { board := setCell capBoard.board 1 2 (some ⟨Color.white, false⟩)
    white_left := 2
    black_left := 1
    white_kings := 0
    black_kings := 0 }

/-- A white man stuck at `(0, 0)` (no forward moves), black far away. -/
def stuckBoard : Board :=
  { board := setCell (setCell emptyGrid 0 0 (some ⟨Color.white, false⟩))
      7 7 (some ⟨Color.black, false⟩)
    white_left := 1
    black_left := 1
    white_kings := 0
    black_kings := 0 }

/-- A board with no black pieces (terminal). -/
def deadBoard : Board :=
  { board := setCell emptyGrid 3 3 (some ⟨Color.white, false⟩)
    white_left := 1
    black_left := 0
    white_kings := 0
    black_kings := 0 }

/-- A white man at `(5, 0)` with a single simple move to `(4, 1)`. -/
def miniBoard : Board :=
  { board := setCell (setCell emptyGrid 5 0 (some ⟨Color.white, false⟩))
      0 1 (some ⟨Color.black, false⟩)
    white_left := 1
    black_left := 1
    white_kings := 0
    black_kings := 0 }

/-- The board after white's first legal move from the standard layout. -/
def stepBoard : Board :=
  remove_piece (move_piece initialBoard ⟨Color.white, false⟩ (5, 1) (4, 0)) []

theorem c1_amended_witness :
    getCell (move_piece kingBoard ⟨Color.white, true⟩ (6, 6) (7, 7)).board 7 7 =
      some ⟨Color.white, true⟩ ∧
    (move_piece kingBoard ⟨Color.white, true⟩ (6, 6) (7, 7)).white_kings =
      kingBoard.white_kings + 1 := by
  have h := c1_amended kingBoard ⟨Color.white, true⟩ (6, 6) (7, 7)
    (by decide) (by decide) (Or.inl ⟨by decide, rfl⟩)
  exact ⟨h.1, (h.2.1 rfl).1⟩

theorem c2_reachable_invariant_witness :
    stepBoard.white_left = (colorCount stepBoard.board Color.white : Int) ∧
    stepBoard.black_left = (colorCount stepBoard.board Color.black : Int) ∧
    stepBoard.white_kings ≤ stepBoard.white_left ∧
    stepBoard.black_kings ≤ stepBoard.black_left :=
  c2_reachable_invariant stepBoard
    (Reachable.step Reachable.init (by decide) (by decide))

theorem c4_capture_witness :
    ((1, 2), [(2, 3)]) ∈ get_valid_moves capBoard ⟨Color.white, false⟩ 3 4 ∧
    _traverse capBoard2 3 4 (-1) (-1) Color.white [] 1 = [] := by
  constructor
  · have h := (c4_capture capBoard ⟨Color.white, false⟩ ⟨Color.black, false⟩ 3 4 (-1) (-1)
      (by decide) (by decide) (by decide)).1 (by decide) (by decide)
    exact h
  · exact (c4_capture capBoard2 ⟨Color.white, false⟩ ⟨Color.black, false⟩ 3 4 (-1) (-1)
      (by decide) (by decide) (by decide)).2 (Or.inr (by decide))

theorem c5_minimax_frame_witness :
    heapGet (minimaxH [⟨Color.white, true⟩, ⟨Color.black, false⟩]
      { board := setCellH (setCellH ((List.range 64).map fun _ => none) 6 6 (some 0))
          0 1 (some 1)
        white_left := 1
        black_left := 1
        white_kings := 1
        black_kings := 0 } 2 ⊥ ⊤ true).1 0 = some ⟨Color.white, true⟩ :=
  (c5_minimax_frame [⟨Color.white, true⟩, ⟨Color.black, false⟩] _ 2 ⊥ ⊤ true).2
    6 6 0 ⟨Color.white, true⟩ (by decide) (by decide)

theorem c6_no_moves_witness : minimax stuckBoard 1 ⊥ ⊤ true = (⊥, none) := by
  have h := c6_no_moves stuckBoard 1 true (by decide) (by decide) (by decide)
  exact h

theorem c7_single_capture_witness : ([(2, 3)] : List Pos).length ≤ 1 :=
  c7_single_capture capBoard ⟨Color.white, false⟩ 3 4 (1, 2) [(2, 3)] (by decide)

theorem c8_cutoff_witness :
    minimax deadBoard 3 ⊥ ⊤ true = (evaluate deadBoard, none) ∧
    is_terminal deadBoard ∧ (minimax deadBoard 3 ⊥ ⊤ false).2 = none := by
  have h := c8_cutoff deadBoard 3 ⊥ ⊤ true
  exact ⟨h.1 (Or.inr (Or.inr rfl)), h.2 rfl⟩

theorem c9_best_move_legal_witness :
    getCell miniBoard.board 5 0 = some ⟨Color.white, false⟩ ∧
    (Piece.mk Color.white false).color = (if true then Color.white else Color.black) ∧
    ∃ caps, ((4, 1), caps) ∈ get_valid_moves miniBoard ⟨Color.white, false⟩ 5 0 :=
  c9_best_move_legal miniBoard 1 ⊥ ⊤ true (fin 0) ⟨Color.white, false⟩ (5, 0) (4, 1)
    (by decide)

theorem c10_move_frame_witness :
    getCell (move_piece capBoard ⟨Color.white, false⟩ (3, 4) (2, 5)).board 2 3 =
      getCell capBoard.board 2 3 ∧
    getCell (move_piece capBoard ⟨Color.white, false⟩ (3, 4) (2, 5)).board 3 4 = none ∧
    (∃ k : Bool, getCell (move_piece capBoard ⟨Color.white, false⟩ (3, 4) (2, 5)).board 2 5 =
      some ⟨Color.white, k⟩) ∧
    (move_piece capBoard ⟨Color.white, false⟩ (3, 4) (2, 5)).white_left =
      capBoard.white_left ∧
    (move_piece capBoard ⟨Color.white, false⟩ (3, 4) (2, 5)).black_left =
      capBoard.black_left :=
  c10_move_frame capBoard ⟨Color.white, false⟩ (3, 4) (2, 5) (2, 3)
    (by decide) (by decide) (by decide) (by decide) (by decide) (by decide)

end Checkers
